import Mathlib

/-!
# Base64 codec of `base64client` (src/main.cpp)

A shallow embedding of `StringToBase64` and `Base64ToString` and of the
`std::string` / `std::bitset` operations they use.

Modelling conventions.

* A C++ `char` is a Lean `Char` whose code is the byte value `0..255`
  (`ByteString` says that every character of a text is such a byte).
  `std::string` is `List Char`.
* Whether `char` is signed is implementation defined; it is the Boolean
  parameter `charSigned` of the encoder.
* `size_t` / `unsigned long long` are 64 bits wide.  Subtractions on `size_t`
  wrap (`size_t_sub`).  Texts are command-line arguments, far shorter than
  `2^31` characters, so `int counter` holds the number of `=` exactly.
* Operations that can throw return `Except Abort`; an exception is never caught
  in `main.cpp`, so an `.error` is an abnormal termination of the program.
* The range-`for` over the source text is a fold.  The three indexed `for`
  loops are functions on an iteration budget (`fuel`); the callers pass the
  loop bound, which is enough, and a loop that would need more reports
  `Abort.outOfFuel`.
-/

namespace Base64Client

/-! ## Library operations -/

/-- Ways in which the code stops without returning a value. -/
inductive Abort where
  /-- `std::invalid_argument` (a `std::bitset` built from a text that is not binary). -/
  | invalidArgument
  /-- `std::out_of_range` (`substr` past the end) or an index past the end of a text. -/
  | outOfRange
  /-- `std::length_error` (`resize` beyond `max_size()`). -/
  | lengthError
  /-- The iteration budget of a loop model was used up. -/
  | outOfFuel
  deriving DecidableEq, Repr

instance instDecidableEqResult {α : Type} [DecidableEq α] : DecidableEq (Except Abort α)
  | .ok a, .ok b =>
    if h : a = b then isTrue (congrArg Except.ok h)
    else isFalse (fun h2 => h (Except.ok.inj h2))
  | .error a, .error b =>
    if h : a = b then isTrue (congrArg Except.error h)
    else isFalse (fun h2 => h (Except.error.inj h2))
  | .ok _, .error _ => isFalse (fun h => Except.noConfusion h)
  | .error _, .ok _ => isFalse (fun h => Except.noConfusion h)

/-- Every character is a byte `0..255`. -/
def ByteString (s : List Char) : Prop := ∀ c ∈ s, c.toNat < 256

instance (s : List Char) : Decidable (ByteString s) := by
  unfold ByteString; infer_instance

/-- Line 21: `base64_alphabet`. -/
def base64_alphabet : List Char :=
  "ABCDEFGHIJKLMNOPQRSTUVWXYZabcdefghijklmnopqrstuvwxyz0123456789+/".toList

/-- `std::string::npos`, the largest `size_t`. -/
def npos : Nat := 2 ^ 64 - 1

/-- `std::string::max_size()` (libstdc++, 64 bit). -/
def max_size : Nat := 2 ^ 62 - 1

/-- Subtraction of two `size_t` values, wrapping modulo `2^64`. -/
def size_t_sub (a b : Nat) : Nat := if b ≤ a then a - b else a + 2 ^ 64 - b

/-- `s.find(c)`: position of the first `c`, or `npos`. -/
def find (s : List Char) (c : Char) : Nat :=
  if s.indexOf c < s.length then s.indexOf c else npos

/-- `s[i]` on a constant text: the character, the terminating null when
`i = s.size()`, undefined past that. -/
def charAt (s : List Char) (i : Nat) : Except Abort Char :=
  match s[i]? with
  | some c => .ok c
  | none => if i = s.length then .ok (Char.ofNat 0) else .error .outOfRange

/-- `s.substr(pos, len)`. -/
def substr (s : List Char) (pos len : Nat) : Except Abort (List Char) :=
  if s.length < pos then .error .outOfRange else .ok ((s.drop pos).take len)

/-- `s.resize(n)`: shrinking keeps the first `n` characters (a text is never
longer than `max_size()`, so this cannot throw); growing throws
`std::length_error` beyond `max_size()` and appends null characters otherwise. -/
def resize (s : List Char) (n : Nat) : Except Abort (List Char) :=
  if n ≤ s.length then .ok (s.take n)
  else if max_size < n then .error .lengthError
  else .ok (s ++ List.replicate (n - s.length) (Char.ofNat 0))

/-- `std::count(s.begin(), s.end(), c)`. -/
def count (s : List Char) (c : Char) : Nat := s.count c

/-- Conversion of a `char` to the `unsigned long long` parameter of the
`std::bitset` constructor: a negative value of a signed `char` wraps. -/
def charToULL (charSigned : Bool) (c : Char) : Nat :=
  if charSigned && decide (128 ≤ c.toNat) then c.toNat + 2 ^ 64 - 256 else c.toNat

/-- `std::bitset<N>(unsigned long long val)`: the low `N` bits of `val`.
A bitset is represented by its value, which is what `to_ulong()` returns. -/
def bitsetOfULL (N val : Nat) : Nat := val % 2 ^ N

/-- `std::bitset<N>::to_string()`: `N` characters `0`/`1`, most significant bit first. -/
def bitsetToString : Nat → Nat → List Char
  | 0, _ => []
  | N + 1, v => bitsetToString N (v / 2) ++ [if v % 2 = 1 then '1' else '0']

/-- Value of a text of binary digits, most significant first. -/
def binaryValue (s : List Char) : Nat :=
  s.foldl (fun acc c => 2 * acc + (if c = '1' then 1 else 0)) 0

/-- `std::bitset<N>(const std::string&)`: throws unless every character is
`0` or `1`; a text shorter than `N` fills the low positions. -/
def bitsetOfString (N : Nat) (s : List Char) : Except Abort Nat :=
  if s.all (fun c => c = '0' || c = '1') then .ok (binaryValue (s.take N))
  else .error .invalidArgument

/-! ## The encoder, lines 23-55 -/

/-- Lines 25-30: the bit string of the source text. -/
def sourceBitString (charSigned : Bool) (source_string : List Char) : List Char :=
  source_string.foldl
    (fun bit_string c => bit_string ++ bitsetToString 8 (bitsetOfULL 8 (charToULL charSigned c)))
    []

/-- Lines 32-38: zero bits appended for alignment. -/
def alignBitString (bit_string : List Char) : List Char :=
  let remainder := bit_string.length % 24
  if remainder = 8 then bit_string ++ List.replicate 4 '0'
  else if remainder = 16 then bit_string ++ List.replicate 2 '0'
  else bit_string

/-- Lines 42-45: the loop `for (i = 0; i < bit_string.size(); i += 6)`,
started at index `i` with `base64_string` accumulated so far. -/
def encodeLoop (bit_string : List Char) : Nat → Nat → List Char → Except Abort (List Char)
  | 0, i, base64_string =>
    if i < bit_string.length then .error .outOfFuel else .ok base64_string
  | fuel + 1, i, base64_string =>
    if i < bit_string.length then do
      let slice ← substr bit_string i 6
      let binary_number ← bitsetOfString 6 slice
      let ch ← charAt base64_alphabet binary_number
      encodeLoop bit_string fuel (i + 6) (base64_string ++ [ch])
    else .ok base64_string

/-- Lines 47-52: the `=` characters appended after the loop. -/
def appendPadding (remainder : Nat) (base64_string : List Char) : List Char :=
  if remainder = 8 then base64_string ++ List.replicate 2 '='
  else if remainder = 16 then base64_string ++ List.replicate 1 '='
  else base64_string

/-- Lines 23-55: `StringToBase64`. -/
def StringToBase64 (charSigned : Bool) (source_string : List Char) :
    Except Abort (List Char) := do
  let bit_string := sourceBitString charSigned source_string
  let remainder := bit_string.length % 24
  let bit_string := alignBitString bit_string
  let base64_string ← encodeLoop bit_string bit_string.length 0 []
  return appendPadding remainder base64_string

/-! ## The decoder, lines 57-83 -/

/-- Lines 63-66: the loop `for (i = 0; i < base64_string.size() - counter; i++)`. -/
def decodeBitsLoop (base64_string : List Char) (bound : Nat) :
    Nat → Nat → List Char → Except Abort (List Char)
  | 0, i, bit_string => if i < bound then .error .outOfFuel else .ok bit_string
  | fuel + 1, i, bit_string =>
    if i < bound then do
      let c ← charAt base64_string i
      let binary_number := bitsetOfULL 6 (find base64_alphabet c)
      decodeBitsLoop base64_string bound fuel (i + 1) (bit_string ++ bitsetToString 6 binary_number)
    else .ok bit_string

/-- Lines 68-73: the extra zero bits are cut off. -/
def removeExtraBits (counter : Nat) (bit_string : List Char) : Except Abort (List Char) :=
  if counter = 2 then resize bit_string (size_t_sub bit_string.length 4)
  else if counter = 1 then resize bit_string (size_t_sub bit_string.length 2)
  else .ok bit_string

/-- Lines 77-80: the loop `for (i = 0; i < bit_string.size(); i += 8)`. -/
def decodeCharsLoop (bit_string : List Char) : Nat → Nat → List Char → Except Abort (List Char)
  | 0, i, decoded_string =>
    if i < bit_string.length then .error .outOfFuel else .ok decoded_string
  | fuel + 1, i, decoded_string =>
    if i < bit_string.length then do
      let slice ← substr bit_string i 8
      let binary_char ← bitsetOfString 8 slice
      decodeCharsLoop bit_string fuel (i + 8) (decoded_string ++ [Char.ofNat binary_char])
    else .ok decoded_string

/-- Lines 57-83: `Base64ToString`. -/
def Base64ToString (base64_string : List Char) : Except Abort (List Char) := do
  let counter := count base64_string '='
  let bound := size_t_sub base64_string.length counter
  let bit_string ← decodeBitsLoop base64_string bound bound 0 []
  let bit_string ← removeExtraBits counter bit_string
  decodeCharsLoop bit_string bit_string.length 0 []

/-- Lines 58-66 of `Base64ToString`: the bit string left by the first loop. -/
def decoderBitString (base64_string : List Char) : Except Abort (List Char) :=
  let counter := count base64_string '='
  let bound := size_t_sub base64_string.length counter
  decodeBitsLoop base64_string bound bound 0 []

/-- Lines 58-73 of `Base64ToString`: the bit string after the extra bits are cut off. -/
def decoderCutBitString (base64_string : List Char) : Except Abort (List Char) := do
  let bit_string ← decoderBitString base64_string
  removeExtraBits (count base64_string '=') bit_string

/-- Number of bits that lines 68-73 of `Base64ToString` remove from the bit string. -/
def discardedBits (base64_string : List Char) : Except Abort Nat := do
  let bit_string ← decoderBitString base64_string
  let shortened ← removeExtraBits (count base64_string '=') bit_string
  return bit_string.length - shortened.length

/-- Lines 241-250 of `main`: the exit code of a decode-mode run, `none` when
the run is ended by an uncaught exception instead of returning from `main`. -/
def decodeModeExit (input_text : List Char) : Option Nat :=
  match Base64ToString input_text with
  | .ok _ => some 0
  | .error _ => none

/-! ## Notions of the specification -/

/-- Every character is a binary digit. -/
def Binary (s : List Char) : Prop := ∀ c ∈ s, c = '0' ∨ c = '1'

/-- The alphabet character at an index `0..63`. -/
def alphabetChar (i : Nat) : Char := base64_alphabet.getD i (Char.ofNat 0)

/-- Reverse lookup of a character in the alphabet table. -/
def alphabetIndex (c : Char) : Nat := base64_alphabet.indexOf c

/-- Number of trailing `=` characters of a text. -/
def trailingPads (s : List Char) : Nat := (s.reverse.takeWhile (fun c => c == '=')).length

/-- Pad count of section 3: 0, 1 or 2 for `N mod 3` equal to 0, 2 or 1. -/
def padCount (N : Nat) : Nat := if N % 3 = 1 then 2 else if N % 3 = 2 then 1 else 0

/-- The four (or, for a final partial group, two or three) 6-bit indices of
section 4.1 for each group of source bytes. -/
def rfcIndices : List Char → List Nat
  | b0 :: b1 :: b2 :: rest =>
    (b0.toNat >>> 2)
      :: (((b0.toNat &&& 0x03) <<< 4) ||| (b1.toNat >>> 4))
      :: (((b1.toNat &&& 0x0F) <<< 2) ||| (b2.toNat >>> 6))
      :: (b2.toNat &&& 0x3F)
      :: rfcIndices rest
  | [b0, b1] =>
    [b0.toNat >>> 2, ((b0.toNat &&& 0x03) <<< 4) ||| (b1.toNat >>> 4),
     (b1.toNat &&& 0x0F) <<< 2]
  | [b0] => [b0.toNat >>> 2, (b0.toNat &&& 0x03) <<< 4]
  | [] => []

/-- The bytes of section 4.2 for a sequence of 6-bit indices: three for each
full group, one or two for a final group of two or three indices. -/
def rfcBytes : List Nat → List Nat
  | i0 :: i1 :: i2 :: i3 :: rest =>
    ((i0 <<< 2) ||| (i1 >>> 4))
      :: (((i1 &&& 0x0F) <<< 4) ||| (i2 >>> 2))
      :: (((i2 &&& 0x03) <<< 6) ||| i3)
      :: rfcBytes rest
  | [i0, i1, i2] => [(i0 <<< 2) ||| (i1 >>> 4), ((i1 &&& 0x0F) <<< 4) ||| (i2 >>> 2)]
  | [i0, i1] => [(i0 <<< 2) ||| (i1 >>> 4)]
  | _ => []

/-- The direct bit-shift encoder of section 4.1 of the specification. -/
def rfcEncode : List Char → List Char
  | b0 :: b1 :: b2 :: rest =>
    alphabetChar (b0.toNat >>> 2)
      :: alphabetChar (((b0.toNat &&& 0x03) <<< 4) ||| (b1.toNat >>> 4))
      :: alphabetChar (((b1.toNat &&& 0x0F) <<< 2) ||| (b2.toNat >>> 6))
      :: alphabetChar (b2.toNat &&& 0x3F)
      :: rfcEncode rest
  | [b0, b1] =>
    [alphabetChar (b0.toNat >>> 2),
     alphabetChar (((b0.toNat &&& 0x03) <<< 4) ||| (b1.toNat >>> 4)),
     alphabetChar ((b1.toNat &&& 0x0F) <<< 2), '=']
  | [b0] =>
    [alphabetChar (b0.toNat >>> 2), alphabetChar ((b0.toNat &&& 0x03) <<< 4), '=', '=']
  | [] => []

/-- The direct bit-shift decoder of section 4.2 of the specification: the
bytes of each group of four characters, without the third byte when the group
ends in one `=` and without the second and third when it ends in two. -/
def rfcDecode : List Char → List Char
  | c0 :: c1 :: c2 :: c3 :: rest =>
    let i0 := alphabetIndex c0
    let i1 := alphabetIndex c1
    let i2 := alphabetIndex c2
    let i3 := alphabetIndex c3
    let b0 := Char.ofNat ((i0 <<< 2) ||| (i1 >>> 4))
    let b1 := Char.ofNat (((i1 &&& 0x0F) <<< 4) ||| (i2 >>> 2))
    let b2 := Char.ofNat (((i2 &&& 0x03) <<< 6) ||| i3)
    if c3 = '=' then
      if c2 = '=' then b0 :: rfcDecode rest else b0 :: b1 :: rfcDecode rest
    else b0 :: b1 :: b2 :: rfcDecode rest
  | _ => []

/-- Well-formed Base64 text (section 4.2): the length is a multiple of 4, at
most two trailing `=`, and every character before them is in the alphabet. -/
def WellFormed (s : List Char) : Prop :=
  s.length % 4 = 0 ∧ trailingPads s ≤ 2 ∧
    ∀ c ∈ s.take (s.length - trailingPads s), c ∈ base64_alphabet

instance (s : List Char) : Decidable (WellFormed s) := by
  unfold WellFormed; infer_instance

/-- Alphabet index of the last character before the trailing pad characters
(0 when there is no such character). -/
def lastIndex (s : List Char) : Nat :=
  match (s.take (s.length - trailingPads s)).getLast? with
  | some c => alphabetIndex c
  | none => 0

/-- Canonical text: the last non-pad character has an index divisible by 16
when the text ends in `==` and divisible by 4 when it ends in a single `=`. -/
def Canonical (s : List Char) : Prop :=
  (trailingPads s = 2 → lastIndex s % 16 = 0) ∧ (trailingPads s = 1 → lastIndex s % 4 = 0)

instance (s : List Char) : Decidable (Canonical s) := by
  unfold Canonical; infer_instance

/-! ## Facts about `std::bitset` texts -/

theorem bitsetToString_length (N v : Nat) : (bitsetToString N v).length = N := by
  induction N generalizing v with
  | zero => rfl
  | succ N ih => simp [bitsetToString, ih]

theorem bitsetToString_binary (N v : Nat) : Binary (bitsetToString N v) := by
  induction N generalizing v with
  | zero => intro c hc; simp [bitsetToString] at hc
  | succ N ih =>
    intro c hc
    simp only [bitsetToString, List.mem_append, List.mem_singleton] at hc
    rcases hc with hc | hc
    · exact ih _ c hc
    · subst hc; split <;> simp

theorem bitsetToString_mod (N v : Nat) :
    bitsetToString N (v % 2 ^ N) = bitsetToString N v := by
  induction N generalizing v with
  | zero => rfl
  | succ N ih =>
    have h1 : v % 2 ^ (N + 1) / 2 = (v / 2) % 2 ^ N := by
      rw [Nat.pow_succ, Nat.mul_comm, Nat.mod_mul_right_div_self]
    have h2 : v % 2 ^ (N + 1) % 2 = v % 2 := by
      rw [Nat.pow_succ, Nat.mul_comm]
      exact Nat.mod_mul_right_mod v 2 (2 ^ N)
    simp only [bitsetToString, h1, h2, ih]

theorem bitsetToString_add (m n v : Nat) :
    bitsetToString (m + n) v = bitsetToString m (v / 2 ^ n) ++ bitsetToString n v := by
  induction n generalizing v with
  | zero => simp [bitsetToString]
  | succ n ih =>
    have h : v / 2 / 2 ^ n = v / 2 ^ (n + 1) := by
      rw [Nat.div_div_eq_div_mul, Nat.pow_succ, Nat.mul_comm]
    rw [← Nat.add_assoc]
    simp only [bitsetToString, ih, h, List.append_assoc]

/-- Two bitset texts side by side are the text of the combined value. -/
theorem bitsetToString_append (m n a b : Nat) (hb : b < 2 ^ n) :
    bitsetToString m a ++ bitsetToString n b = bitsetToString (m + n) (a * 2 ^ n + b) := by
  rw [bitsetToString_add]
  have h1 : (a * 2 ^ n + b) / 2 ^ n = a := by
    rw [Nat.add_comm, Nat.add_mul_div_right _ _ (Nat.two_pow_pos n), Nat.div_eq_of_lt hb,
      Nat.zero_add]
  have h2 : (a * 2 ^ n + b) % 2 ^ n = b := by
    rw [Nat.add_comm, Nat.add_mul_mod_self_right, Nat.mod_eq_of_lt hb]
  rw [h1, ← bitsetToString_mod n (a * 2 ^ n + b), h2]

theorem binaryValue_foldl (s : List Char) (a : Nat) :
    s.foldl (fun acc c => 2 * acc + (if c = '1' then 1 else 0)) a
      = a * 2 ^ s.length + binaryValue s := by
  induction s generalizing a with
  | nil => simp [binaryValue]
  | cons c s ih =>
    simp only [binaryValue, List.foldl_cons, List.length_cons]
    rw [ih, ih (2 * 0 + _)]
    rw [Nat.pow_succ]
    ring

theorem binaryValue_append (s t : List Char) :
    binaryValue (s ++ t) = binaryValue s * 2 ^ t.length + binaryValue t := by
  unfold binaryValue
  rw [List.foldl_append, binaryValue_foldl]
  rfl

theorem binaryValue_lt (s : List Char) : binaryValue s < 2 ^ s.length := by
  induction s using List.reverseRecOn with
  | nil => simp [binaryValue]
  | append_singleton s c ih =>
    have : binaryValue [c] ≤ 1 := by
      simp only [binaryValue, List.foldl_cons, List.foldl_nil]
      split <;> omega
    rw [binaryValue_append, List.length_append, List.length_singleton, Nat.pow_one,
      Nat.pow_succ]
    omega

theorem binaryValue_bitsetToString (N v : Nat) :
    binaryValue (bitsetToString N v) = v % 2 ^ N := by
  induction N generalizing v with
  | zero => simp [bitsetToString, binaryValue, Nat.mod_one]
  | succ N ih =>
    simp only [bitsetToString]
    rw [binaryValue_append, ih]
    have h : binaryValue [if v % 2 = 1 then '1' else '0'] = v % 2 := by
      simp only [binaryValue, List.foldl_cons, List.foldl_nil]
      rcases Nat.mod_two_eq_zero_or_one v with h | h <;> simp [h]
    rw [h, List.length_singleton, Nat.pow_one, Nat.pow_succ]
    have := Nat.mod_mul_right_div_self v 2 (2 ^ N)
    have h3 : v % (2 ^ N * 2) % 2 = v % 2 := by
      rw [Nat.mul_comm]; exact Nat.mod_mul_right_mod v 2 (2 ^ N)
    have h4 := Nat.div_add_mod (v % (2 ^ N * 2)) 2
    rw [Nat.mul_comm 2 (2 ^ N)] at this
    omega

theorem bitsetToString_binaryValue (s : List Char) (hs : Binary s) :
    bitsetToString s.length (binaryValue s) = s := by
  induction s using List.reverseRecOn with
  | nil => rfl
  | append_singleton s c ih =>
    have hs1 : Binary s := fun x hx => hs x (List.mem_append_left _ hx)
    have hc : c = '0' ∨ c = '1' := hs c (by simp)
    rw [List.length_append, List.length_singleton, binaryValue_append]
    simp only [bitsetToString, List.length_singleton, Nat.pow_one]
    have hv : binaryValue [c] = if c = '1' then 1 else 0 := by
      simp [binaryValue]
    have hlt : binaryValue [c] < 2 := by rw [hv]; split <;> omega
    have h1 : (binaryValue s * 2 + binaryValue [c]) / 2 = binaryValue s := by omega
    have h2 : (binaryValue s * 2 + binaryValue [c]) % 2 = binaryValue [c] := by omega
    rw [h1, h2, ih hs1, hv]
    rcases hc with hc | hc <;> subst hc <;> simp

theorem bitsetOfString_of_binary (N : Nat) (s : List Char) (hs : Binary s) :
    bitsetOfString N s = .ok (binaryValue (s.take N)) := by
  unfold bitsetOfString
  rw [if_pos]
  rw [List.all_eq_true]
  intro c hc
  rcases hs c hc with h | h <;> subst h <;> simp

theorem Binary.append {s t : List Char} (hs : Binary s) (ht : Binary t) : Binary (s ++ t) := by
  intro c hc
  rcases List.mem_append.mp hc with h | h
  · exact hs c h
  · exact ht c h

theorem Binary.take {s : List Char} (hs : Binary s) (n : Nat) : Binary (s.take n) :=
  fun c hc => hs c (List.mem_of_mem_take hc)

theorem Binary.drop {s : List Char} (hs : Binary s) (n : Nat) : Binary (s.drop n) :=
  fun c hc => hs c (List.mem_of_mem_drop hc)

theorem Binary.replicate_zero (n : Nat) : Binary (List.replicate n '0') := by
  intro c hc
  exact Or.inl (List.eq_of_mem_replicate hc)

theorem Binary.flatMap {α : Type} (l : List α) (f : α → List Char) (h : ∀ a, Binary (f a)) :
    Binary (l.flatMap f) := by
  intro c hc
  rcases List.mem_flatMap.mp hc with ⟨a, _, ha⟩
  exact h a c ha

/-! ## Facts about the alphabet table -/

theorem charAt_alphabet : ∀ x, x < 64 → charAt base64_alphabet x = .ok (alphabetChar x) := by
  decide

theorem alphabetChar_mem : ∀ x, x < 64 → alphabetChar x ∈ base64_alphabet := by
  decide

theorem alphabetChar_ne_pad : ∀ x, x < 64 → alphabetChar x ≠ '=' := by
  decide

theorem find_alphabetChar : ∀ x, x < 64 → find base64_alphabet (alphabetChar x) = x := by
  decide

theorem pad_not_mem_alphabet : '=' ∉ base64_alphabet := by
  decide

/-! ## The encoder loop -/

theorem bind_ok {α β : Type} (a : α) (f : α → Except Abort β) :
    (Except.ok a >>= f) = f a := rfl

/-- On a bit string made of 6-bit texts the loop emits one alphabet character
for each of them. -/
theorem encodeLoop_sextets (idxs : List Nat) (h : ∀ x ∈ idxs, x < 64) :
    ∀ (pre acc : List Char) (fuel : Nat), idxs.length ≤ fuel →
      encodeLoop (pre ++ idxs.flatMap (bitsetToString 6)) fuel pre.length acc
        = .ok (acc ++ idxs.map alphabetChar) := by
  induction idxs with
  | nil =>
    intro pre acc fuel _
    cases fuel <;> simp [encodeLoop]
  | cons x xs ih =>
    intro pre acc fuel hf
    obtain ⟨f, rfl⟩ : ∃ f, fuel = f + 1 := ⟨fuel - 1, by simp at hf; omega⟩
    have hx : x < 64 := h x (by simp)
    have hlt : pre.length < (pre ++ (x :: xs).flatMap (bitsetToString 6)).length := by
      simp [bitsetToString_length]
    have hsub : substr (pre ++ (x :: xs).flatMap (bitsetToString 6)) pre.length 6
        = .ok (bitsetToString 6 x) := by
      unfold substr
      rw [if_neg (by omega)]
      simp only [List.flatMap_cons, List.drop_left]
      rw [List.take_left' (bitsetToString_length 6 x)]
    have hbit : bitsetOfString 6 (bitsetToString 6 x) = .ok x := by
      rw [bitsetOfString_of_binary _ _ (bitsetToString_binary 6 x)]
      rw [List.take_of_length_le (by rw [bitsetToString_length]),
        binaryValue_bitsetToString]
      exact congrArg _ (Nat.mod_eq_of_lt hx)
    rw [encodeLoop, if_pos hlt, hsub, bind_ok, hbit, bind_ok, charAt_alphabet x hx, bind_ok]
    have hpre : pre ++ (x :: xs).flatMap (bitsetToString 6)
        = (pre ++ bitsetToString 6 x) ++ xs.flatMap (bitsetToString 6) := by
      simp
    have hlen : pre.length + 6 = (pre ++ bitsetToString 6 x).length := by
      simp [bitsetToString_length]
    rw [hpre, hlen, ih (fun y hy => h y (by simp [hy])) _ _ f (by simp at hf; omega)]
    simp

/-- A binary text whose length is a multiple of 6 is a sequence of 6-bit texts. -/
theorem exists_sextets (k : Nat) :
    ∀ s : List Char, Binary s → s.length = 6 * k →
      ∃ idxs : List Nat, idxs.length = k ∧ (∀ x ∈ idxs, x < 64) ∧
        s = idxs.flatMap (bitsetToString 6) := by
  induction k with
  | zero =>
    intro s _ hl
    exact ⟨[], rfl, by simp, by simpa using hl⟩
  | succ k ih =>
    intro s hs hl
    obtain ⟨idxs, h1, h2, h3⟩ := ih (s.drop 6) (hs.drop 6) (by simp; omega)
    refine ⟨binaryValue (s.take 6) :: idxs, by simp [h1], ?_, ?_⟩
    · intro x hx
      rcases List.mem_cons.mp hx with rfl | hx
      · have := binaryValue_lt (s.take 6)
        have hl6 : (s.take 6).length = 6 := by simp; omega
        rw [hl6] at this
        exact this
      · exact h2 x hx
    · have hl6 : (s.take 6).length = 6 := by simp; omega
      have := bitsetToString_binaryValue (s.take 6) (hs.take 6)
      rw [hl6] at this
      rw [List.flatMap_cons, this, ← h3, List.take_append_drop]

/-! ## The bit string of the encoder -/

theorem byte_bits (charSigned : Bool) (c : Char) :
    bitsetToString 8 (bitsetOfULL 8 (charToULL charSigned c)) = bitsetToString 8 c.toNat := by
  unfold bitsetOfULL
  rw [bitsetToString_mod]
  unfold charToULL
  split
  · have h : (c.toNat + 2 ^ 64 - 256) % 2 ^ 8 = c.toNat % 2 ^ 8 := by
      norm_num
      omega
    rw [← bitsetToString_mod 8 (c.toNat + 2 ^ 64 - 256), h, bitsetToString_mod]
  · rfl

theorem foldl_append_eq_flatMap {α : Type} (f : α → List Char) (l : List α) (acc : List Char) :
    l.foldl (fun bit_string c => bit_string ++ f c) acc = acc ++ l.flatMap f := by
  induction l generalizing acc with
  | nil => simp
  | cons a l ih => simp [ih]

theorem sourceBitString_eq (charSigned : Bool) (b : List Char) :
    sourceBitString charSigned b = b.flatMap (fun c => bitsetToString 8 c.toNat) := by
  unfold sourceBitString
  rw [foldl_append_eq_flatMap]
  simp [byte_bits]

theorem length_flatMap_bits {α : Type} (w : Nat) (g : α → Nat) (l : List α) :
    (l.flatMap (fun a => bitsetToString w (g a))).length = w * l.length := by
  induction l with
  | nil => simp
  | cons a l ih =>
    rw [List.flatMap_cons, List.length_append, ih, bitsetToString_length, List.length_cons]
    ring

theorem sourceBitString_length (charSigned : Bool) (b : List Char) :
    (sourceBitString charSigned b).length = 8 * b.length := by
  rw [sourceBitString_eq, length_flatMap_bits]

theorem sourceBitString_binary (charSigned : Bool) (b : List Char) :
    Binary (sourceBitString charSigned b) := by
  rw [sourceBitString_eq]
  exact Binary.flatMap _ _ (fun c => bitsetToString_binary 8 c.toNat)

/-- Number of zero bits appended by `alignBitString` for `N` source bytes. -/
theorem alignBitString_source (charSigned : Bool) (b : List Char) :
    alignBitString (sourceBitString charSigned b)
      = sourceBitString charSigned b ++ List.replicate (2 * padCount b.length) '0' := by
  unfold alignBitString padCount
  simp only [sourceBitString_length]
  by_cases h1 : b.length % 3 = 1
  · rw [if_pos (by omega), if_pos h1]
  · by_cases h2 : b.length % 3 = 2
    · rw [if_neg (by omega), if_pos (by omega), if_neg h1, if_pos h2]
    · rw [if_neg (by omega), if_neg (by omega), if_neg h1, if_neg h2]
      simp

theorem alignBitString_length (charSigned : Bool) (b : List Char) :
    (alignBitString (sourceBitString charSigned b)).length
      = 6 * (4 * (b.length / 3) + (if b.length % 3 = 0 then 0 else b.length % 3 + 1)) := by
  rw [alignBitString_source, List.length_append, sourceBitString_length, List.length_replicate]
  unfold padCount
  split_ifs <;> omega

theorem alignBitString_binary (charSigned : Bool) (b : List Char) :
    Binary (alignBitString (sourceBitString charSigned b)) := by
  rw [alignBitString_source]
  exact (sourceBitString_binary charSigned b).append (Binary.replicate_zero _)

theorem appendPadding_source (charSigned : Bool) (b out : List Char) :
    appendPadding ((sourceBitString charSigned b).length % 24) out
      = out ++ List.replicate (padCount b.length) '=' := by
  unfold appendPadding padCount
  simp only [sourceBitString_length]
  by_cases h1 : b.length % 3 = 1
  · rw [if_pos (by omega), if_pos h1]
  · by_cases h2 : b.length % 3 = 2
    · rw [if_neg (by omega), if_pos (by omega), if_neg h1, if_pos h2]
    · rw [if_neg (by omega), if_neg (by omega), if_neg h1, if_neg h2]
      simp

/-- The encoder on a source whose aligned bit string is a given sequence of
6-bit texts. -/
theorem StringToBase64_of_sextets (charSigned : Bool) (b : List Char) (idxs : List Nat)
    (h64 : ∀ x ∈ idxs, x < 64)
    (hbits : alignBitString (sourceBitString charSigned b) = idxs.flatMap (bitsetToString 6)) :
    StringToBase64 charSigned b
      = .ok (idxs.map alphabetChar ++ List.replicate (padCount b.length) '=') := by
  have hloop := encodeLoop_sextets idxs h64 [] []
    (alignBitString (sourceBitString charSigned b)).length
    (by rw [hbits, length_flatMap_bits]; omega)
  simp only [List.nil_append, List.length_nil] at hloop
  unfold StringToBase64
  simp only []
  rw [hbits] at hloop ⊢
  rw [hloop, bind_ok]
  exact congrArg Except.ok (appendPadding_source charSigned b _)

/-- Shape of the encoder's result: alphabet characters for the 6-bit groups of
the aligned bit string, then the pad characters. -/
theorem StringToBase64_shape (charSigned : Bool) (b : List Char) :
    ∃ idxs : List Nat,
      idxs.length = 4 * (b.length / 3) + (if b.length % 3 = 0 then 0 else b.length % 3 + 1) ∧
      (∀ x ∈ idxs, x < 64) ∧
      alignBitString (sourceBitString charSigned b) = idxs.flatMap (bitsetToString 6) ∧
      StringToBase64 charSigned b
        = .ok (idxs.map alphabetChar ++ List.replicate (padCount b.length) '=') := by
  obtain ⟨idxs, h1, h2, h3⟩ := exists_sextets _ _ (alignBitString_binary charSigned b)
    (alignBitString_length charSigned b)
  exact ⟨idxs, h1, h2, h3, StringToBase64_of_sextets charSigned b idxs h2 h3⟩

/-! ## Shape of encoded text -/

theorem padCount_le (N : Nat) : padCount N ≤ 2 := by
  unfold padCount; split_ifs <;> omega

theorem trailingPads_append_pads (body : List Char) (p : Nat) (h : ∀ c ∈ body, c ≠ '=') :
    trailingPads (body ++ List.replicate p '=') = p := by
  unfold trailingPads
  rw [List.reverse_append, List.reverse_replicate]
  induction p with
  | zero =>
    simp only [List.replicate_zero, List.nil_append]
    cases hr : body.reverse with
    | nil => rfl
    | cons c t =>
      have hc : c ∈ body := by
        rw [← List.mem_reverse, hr]; simp
      have hne : (c == '=') = false := by simpa using h c hc
      simp [List.takeWhile_cons, hne]
  | succ p ih =>
    rw [List.replicate_succ, List.cons_append, List.takeWhile_cons]
    simp only [beq_self_eq_true, if_true, List.length_cons, ih]

theorem alphabetChars_ne_pad (idxs : List Nat) (h : ∀ x ∈ idxs, x < 64) :
    ∀ c ∈ idxs.map alphabetChar, c ≠ '=' := by
  intro c hc
  obtain ⟨x, hx, rfl⟩ := List.mem_map.mp hc
  exact alphabetChar_ne_pad x (h x hx)

theorem alphabetChars_mem (idxs : List Nat) (h : ∀ x ∈ idxs, x < 64) :
    ∀ c ∈ idxs.map alphabetChar, c ∈ base64_alphabet := by
  intro c hc
  obtain ⟨x, hx, rfl⟩ := List.mem_map.mp hc
  exact alphabetChar_mem x (h x hx)

/-- In a text made of alphabet characters followed by `p` pad characters, a
pad character stands only among the last `p`. -/
theorem pad_position (body : List Char) (p i : Nat) (h : ∀ c ∈ body, c ≠ '=')
    (hi : (body ++ List.replicate p '=')[i]? = some '=') : body.length ≤ i := by
  by_contra hlt
  have hlt2 : i < body.length := by omega
  rw [List.getElem?_append_left hlt2, List.getElem?_eq_getElem hlt2] at hi
  exact h _ (List.getElem_mem hlt2) (Option.some.inj hi)

theorem pad_suffix (body : List Char) (p j : Nat) (hj : body.length ≤ j)
    (hlt : j < (body ++ List.replicate p '=').length) :
    (body ++ List.replicate p '=')[j]? = some '=' := by
  rw [List.getElem?_append_right hj]
  rw [List.length_append, List.length_replicate] at hlt
  rw [List.getElem?_replicate]
  simp
  omega

/-! ## The decoder loops -/

theorem decodeBitsLoop_eq (body : List Char) :
    ∀ (pre tail acc : List Char) (fuel : Nat), body.length ≤ fuel →
      decodeBitsLoop (pre ++ body ++ tail) (pre.length + body.length) fuel pre.length acc
        = .ok (acc ++ body.flatMap (fun c => bitsetToString 6 (find base64_alphabet c))) := by
  induction body with
  | nil =>
    intro pre tail acc fuel _
    cases fuel <;> simp [decodeBitsLoop]
  | cons c cs ih =>
    intro pre tail acc fuel hf
    obtain ⟨f, rfl⟩ : ∃ f, fuel = f + 1 := ⟨fuel - 1, by simp at hf; omega⟩
    have hget : (pre ++ c :: cs ++ tail)[pre.length]? = some c := by
      rw [List.append_assoc, List.getElem?_append_right (Nat.le_refl _)]
      simp
    have hc : charAt (pre ++ c :: cs ++ tail) pre.length = .ok c := by
      unfold charAt
      rw [hget]
    have hm : bitsetToString 6 (bitsetOfULL 6 (find base64_alphabet c))
        = bitsetToString 6 (find base64_alphabet c) := bitsetToString_mod 6 _
    rw [decodeBitsLoop, if_pos (by simp), hc, bind_ok]
    simp only []
    rw [hm]
    have hpre : pre ++ c :: cs ++ tail = (pre ++ [c]) ++ cs ++ tail := by simp
    have hlen : pre.length + (c :: cs).length = (pre ++ [c]).length + cs.length := by
      simp; omega
    have hi : pre.length + 1 = (pre ++ [c]).length := by simp
    rw [hpre, hlen, hi, ih _ _ _ f (by simp at hf; omega)]
    simp

/-- The first decoder loop reads the first `n` characters of the text. -/
theorem decodeBitsLoop_take (s : List Char) (n : Nat) (hn : n ≤ s.length) :
    decodeBitsLoop s n n 0 []
      = .ok ((s.take n).flatMap (fun c => bitsetToString 6 (find base64_alphabet c))) := by
  have h := decodeBitsLoop_eq (s.take n) [] (s.drop n) [] n (by simp)
  simp only [List.nil_append, List.length_nil, Nat.zero_add, List.take_append_drop,
    List.length_take, Nat.min_eq_left hn] at h
  exact h

theorem decodeCharsLoop_octets (bytes : List Nat) (h : ∀ x ∈ bytes, x < 256) :
    ∀ (pre acc : List Char) (fuel : Nat), bytes.length ≤ fuel →
      decodeCharsLoop (pre ++ bytes.flatMap (bitsetToString 8)) fuel pre.length acc
        = .ok (acc ++ bytes.map Char.ofNat) := by
  induction bytes with
  | nil =>
    intro pre acc fuel _
    cases fuel <;> simp [decodeCharsLoop]
  | cons x xs ih =>
    intro pre acc fuel hf
    obtain ⟨f, rfl⟩ : ∃ f, fuel = f + 1 := ⟨fuel - 1, by simp at hf; omega⟩
    have hx : x < 256 := h x (by simp)
    have hlt : pre.length < (pre ++ (x :: xs).flatMap (bitsetToString 8)).length := by
      simp [bitsetToString_length]
    have hsub : substr (pre ++ (x :: xs).flatMap (bitsetToString 8)) pre.length 8
        = .ok (bitsetToString 8 x) := by
      unfold substr
      rw [if_neg (by omega)]
      simp only [List.flatMap_cons, List.drop_left]
      rw [List.take_left' (bitsetToString_length 8 x)]
    have hbit : bitsetOfString 8 (bitsetToString 8 x) = .ok x := by
      rw [bitsetOfString_of_binary _ _ (bitsetToString_binary 8 x)]
      rw [List.take_of_length_le (by rw [bitsetToString_length]),
        binaryValue_bitsetToString]
      exact congrArg _ (Nat.mod_eq_of_lt hx)
    rw [decodeCharsLoop, if_pos hlt, hsub, bind_ok, hbit, bind_ok]
    have hpre : pre ++ (x :: xs).flatMap (bitsetToString 8)
        = (pre ++ bitsetToString 8 x) ++ xs.flatMap (bitsetToString 8) := by
      simp
    have hlen : pre.length + 8 = (pre ++ bitsetToString 8 x).length := by
      simp [bitsetToString_length]
    rw [hpre, hlen, ih (fun y hy => h y (by simp [hy])) _ _ f (by simp at hf; omega)]
    simp

/-- The second decoder loop returns on every binary bit string, whatever its length. -/
theorem decodeCharsLoop_ok (s : List Char) (hs : Binary s) :
    ∀ (fuel i : Nat) (acc : List Char), s.length ≤ i + fuel →
      ∃ out, decodeCharsLoop s fuel i acc = .ok out := by
  intro fuel
  induction fuel with
  | zero =>
    intro i acc hf
    exact ⟨acc, by rw [decodeCharsLoop, if_neg (by omega)]⟩
  | succ f ih =>
    intro i acc hf
    by_cases hi : i < s.length
    · have hsub : substr s i 8 = .ok ((s.drop i).take 8) := by
        unfold substr; rw [if_neg (by omega)]
      rw [decodeCharsLoop, if_pos hi, hsub, bind_ok,
        bitsetOfString_of_binary _ _ ((hs.drop i).take 8), bind_ok]
      exact ih _ _ (by omega)
    · exact ⟨acc, by rw [decodeCharsLoop, if_neg hi]⟩

theorem count_le_length (s : List Char) : count s '=' ≤ s.length := List.count_le_length _ _

/-- The decoder in terms of the characters it reads. -/
theorem Base64ToString_eq (s : List Char) :
    Base64ToString s
      = (removeExtraBits (count s '=')
          ((s.take (s.length - count s '=')).flatMap
            (fun c => bitsetToString 6 (find base64_alphabet c)))) >>=
        fun bit_string => decodeCharsLoop bit_string bit_string.length 0 [] := by
  unfold Base64ToString
  have hsub : size_t_sub s.length (count s '=') = s.length - count s '=' := by
    unfold size_t_sub; rw [if_pos (count_le_length s)]
  simp only [hsub]
  rw [decodeBitsLoop_take s _ (Nat.sub_le _ _), bind_ok]

/-! ## Shifts and masks as arithmetic -/

theorem shl_or (a b k : Nat) (hb : b < 2 ^ k) : (a <<< k) ||| b = a * 2 ^ k + b := by
  rw [Nat.shiftLeft_eq, Nat.mul_comm, ← Nat.mul_add_lt_is_or hb]

theorem and_3 (x : Nat) : x &&& 0x03 = x % 4 := Nat.and_pow_two_sub_one_eq_mod x 2

theorem and_15 (x : Nat) : x &&& 0x0F = x % 16 := Nat.and_pow_two_sub_one_eq_mod x 4

theorem and_63 (x : Nat) : x &&& 0x3F = x % 64 := Nat.and_pow_two_sub_one_eq_mod x 6

theorem enc_c0 (b0 : Nat) : b0 >>> 2 = b0 / 4 := Nat.shiftRight_eq_div_pow b0 2

theorem enc_c1 (b0 b1 : Nat) (h1 : b1 < 256) :
    ((b0 &&& 0x03) <<< 4) ||| (b1 >>> 4) = b0 % 4 * 16 + b1 / 16 := by
  rw [and_3, Nat.shiftRight_eq_div_pow, shl_or _ _ _ (by norm_num; omega)]
  norm_num

theorem enc_c2 (b1 b2 : Nat) (h2 : b2 < 256) :
    ((b1 &&& 0x0F) <<< 2) ||| (b2 >>> 6) = b1 % 16 * 4 + b2 / 64 := by
  rw [and_15, Nat.shiftRight_eq_div_pow, shl_or _ _ _ (by norm_num; omega)]
  norm_num

theorem enc_c1_last (b0 : Nat) : (b0 &&& 0x03) <<< 4 = b0 % 4 * 16 := by
  rw [and_3, Nat.shiftLeft_eq]

theorem enc_c2_last (b1 : Nat) : (b1 &&& 0x0F) <<< 2 = b1 % 16 * 4 := by
  rw [and_15, Nat.shiftLeft_eq]

theorem dec_b0 (i0 i1 : Nat) (h1 : i1 < 64) : (i0 <<< 2) ||| (i1 >>> 4) = i0 * 4 + i1 / 16 := by
  rw [Nat.shiftRight_eq_div_pow, shl_or _ _ _ (by norm_num; omega)]
  norm_num

theorem dec_b1 (i1 i2 : Nat) (h2 : i2 < 64) :
    ((i1 &&& 0x0F) <<< 4) ||| (i2 >>> 2) = i1 % 16 * 16 + i2 / 4 := by
  rw [and_15, Nat.shiftRight_eq_div_pow, shl_or _ _ _ (by norm_num; omega)]
  norm_num

theorem dec_b2 (i2 i3 : Nat) (h3 : i3 < 64) :
    ((i2 &&& 0x03) <<< 6) ||| i3 = i2 % 4 * 64 + i3 := by
  rw [and_3, shl_or _ _ _ (by norm_num; omega)]
  norm_num

/-! ## Bit texts of groups -/

theorem bits_8_8 (a b : Nat) (hb : b < 256) :
    bitsetToString 8 a ++ bitsetToString 8 b = bitsetToString 16 (a * 256 + b) :=
  bitsetToString_append 8 8 a b hb

theorem bits_16_8 (a b : Nat) (hb : b < 256) :
    bitsetToString 16 a ++ bitsetToString 8 b = bitsetToString 24 (a * 256 + b) :=
  bitsetToString_append 16 8 a b hb

theorem bits_6_6 (a b : Nat) (hb : b < 64) :
    bitsetToString 6 a ++ bitsetToString 6 b = bitsetToString 12 (a * 64 + b) :=
  bitsetToString_append 6 6 a b hb

theorem bits_12_6 (a b : Nat) (hb : b < 64) :
    bitsetToString 12 a ++ bitsetToString 6 b = bitsetToString 18 (a * 64 + b) :=
  bitsetToString_append 12 6 a b hb

theorem bits_18_6 (a b : Nat) (hb : b < 64) :
    bitsetToString 18 a ++ bitsetToString 6 b = bitsetToString 24 (a * 64 + b) :=
  bitsetToString_append 18 6 a b hb

theorem zeros_4 : List.replicate 4 '0' = bitsetToString 4 0 := by decide

theorem zeros_2 : List.replicate 2 '0' = bitsetToString 2 0 := by decide

/-- Three bytes and their four 6-bit indices have the same 24 bits. -/
theorem group3_bits (b0 b1 b2 : Nat) (h1 : b1 < 256) (h2 : b2 < 256) :
    bitsetToString 8 b0 ++ bitsetToString 8 b1 ++ bitsetToString 8 b2
      = bitsetToString 6 (b0 >>> 2)
        ++ bitsetToString 6 (((b0 &&& 0x03) <<< 4) ||| (b1 >>> 4))
        ++ bitsetToString 6 (((b1 &&& 0x0F) <<< 2) ||| (b2 >>> 6))
        ++ bitsetToString 6 (b2 &&& 0x3F) := by
  rw [enc_c0, enc_c1 b0 b1 h1, enc_c2 b1 b2 h2, and_63]
  rw [bits_8_8 _ _ h1, bits_16_8 _ _ h2, bits_6_6 _ _ (by omega), bits_12_6 _ _ (by omega),
    bits_18_6 _ _ (by omega)]
  have h : (b0 * 256 + b1) * 256 + b2
      = ((b0 / 4 * 64 + (b0 % 4 * 16 + b1 / 16)) * 64 + (b1 % 16 * 4 + b2 / 64)) * 64
        + b2 % 64 := by omega
  rw [h]

/-- A final single byte, aligned with four zero bits. -/
theorem group1_bits (b0 : Nat) :
    bitsetToString 8 b0 ++ List.replicate 4 '0'
      = bitsetToString 6 (b0 >>> 2) ++ bitsetToString 6 ((b0 &&& 0x03) <<< 4) := by
  rw [enc_c0, enc_c1_last, zeros_4, bits_6_6 _ _ (by omega),
    bitsetToString_append 8 4 b0 0 (by norm_num)]
  have h : b0 * 2 ^ 4 + 0 = b0 / 4 * 64 + b0 % 4 * 16 := by norm_num; omega
  rw [h]

/-- A final pair of bytes, aligned with two zero bits. -/
theorem group2_bits (b0 b1 : Nat) (h1 : b1 < 256) :
    bitsetToString 8 b0 ++ bitsetToString 8 b1 ++ List.replicate 2 '0'
      = bitsetToString 6 (b0 >>> 2)
        ++ bitsetToString 6 (((b0 &&& 0x03) <<< 4) ||| (b1 >>> 4))
        ++ bitsetToString 6 ((b1 &&& 0x0F) <<< 2) := by
  rw [enc_c0, enc_c1 b0 b1 h1, enc_c2_last, zeros_2, bits_8_8 _ _ h1, bits_6_6 _ _ (by omega),
    bits_12_6 _ _ (by omega), bitsetToString_append 16 2 _ 0 (by norm_num)]
  have h : (b0 * 256 + b1) * 2 ^ 2 + 0
      = (b0 / 4 * 64 + (b0 % 4 * 16 + b1 / 16)) * 64 + b1 % 16 * 4 := by norm_num; omega
  rw [h]

/-! ## The encoder and the direct bit-shift encoder -/

theorem padCount_add_three (N : Nat) : padCount (N + 3) = padCount N := by
  unfold padCount
  rw [Nat.add_mod_right]

/-- The aligned bit string of a byte sequence is the bit text of its indices. -/
theorem aligned_bits_rfcIndices :
    ∀ b : List Char, ByteString b →
      b.flatMap (fun c => bitsetToString 8 c.toNat) ++ List.replicate (2 * padCount b.length) '0'
        = (rfcIndices b).flatMap (bitsetToString 6)
  | [], _ => by decide
  | [b0], _ => by
    simp only [rfcIndices, List.flatMap_cons, List.flatMap_nil, List.append_nil]
    exact group1_bits b0.toNat
  | [b0, b1], h => by
    simp only [rfcIndices, List.flatMap_cons, List.flatMap_nil, List.append_nil]
    have := group2_bits b0.toNat b1.toNat (h b1 (by simp))
    simpa [List.append_assoc] using this
  | b0 :: b1 :: b2 :: rest, h => by
    have ih := aligned_bits_rfcIndices rest (fun c hc => h c (by simp [hc]))
    have hg := group3_bits b0.toNat b1.toNat b2.toNat (h b1 (by simp)) (h b2 (by simp))
    have hp : padCount (b0 :: b1 :: b2 :: rest).length = padCount rest.length := by
      simp only [List.length_cons]
      exact padCount_add_three _
    rw [hp]
    simp only [rfcIndices, List.flatMap_cons, List.append_assoc]
    rw [← ih]
    simp only [← List.append_assoc]
    rw [hg]

theorem rfcIndices_lt : ∀ b : List Char, ByteString b → ∀ x ∈ rfcIndices b, x < 64
  | [], _ => by simp [rfcIndices]
  | [b0], h => by
    have h0 := h b0 (by simp)
    intro x hx
    simp only [rfcIndices, List.mem_cons, List.mem_singleton, enc_c0, enc_c1_last,
      List.mem_nil_iff, or_false] at hx
    omega
  | [b0, b1], h => by
    have h0 := h b0 (by simp)
    have h1 := h b1 (by simp)
    intro x hx
    simp only [rfcIndices, List.mem_cons, List.mem_singleton, enc_c0, enc_c2_last,
      enc_c1 _ _ h1, List.mem_nil_iff, or_false] at hx
    omega
  | b0 :: b1 :: b2 :: rest, h => by
    have ih := rfcIndices_lt rest (fun c hc => h c (by simp [hc]))
    have h0 := h b0 (by simp)
    have h1 := h b1 (by simp)
    have h2 := h b2 (by simp)
    intro x hx
    simp only [rfcIndices, List.mem_cons, enc_c0, and_63, enc_c1 _ _ h1, enc_c2 _ _ h2] at hx
    rcases hx with hx | hx | hx | hx | hx
    · omega
    · omega
    · omega
    · omega
    · exact ih x hx

theorem rfcEncode_eq : ∀ b : List Char,
    rfcEncode b = (rfcIndices b).map alphabetChar ++ List.replicate (padCount b.length) '='
  | [] => by decide
  | [b0] => by simp [rfcEncode, rfcIndices, padCount]
  | [b0, b1] => by simp [rfcEncode, rfcIndices, padCount]
  | b0 :: b1 :: b2 :: rest => by
    have ih := rfcEncode_eq rest
    have hp : padCount (b0 :: b1 :: b2 :: rest).length = padCount rest.length := by
      simp only [List.length_cons]
      exact padCount_add_three _
    rw [hp]
    simp only [rfcEncode, rfcIndices, List.map_cons, List.cons_append, ih]

/-! ## The decoder and the direct bit-shift decoder -/

/-- Four 6-bit indices and their three bytes have the same 24 bits. -/
theorem group4_bits (i0 i1 i2 i3 : Nat) (h1 : i1 < 64) (h2 : i2 < 64) (h3 : i3 < 64) :
    bitsetToString 6 i0 ++ bitsetToString 6 i1 ++ bitsetToString 6 i2 ++ bitsetToString 6 i3
      = bitsetToString 8 ((i0 <<< 2) ||| (i1 >>> 4))
        ++ bitsetToString 8 (((i1 &&& 0x0F) <<< 4) ||| (i2 >>> 2))
        ++ bitsetToString 8 (((i2 &&& 0x03) <<< 6) ||| i3) := by
  rw [dec_b0 i0 i1 h1, dec_b1 i1 i2 h2, dec_b2 i2 i3 h3]
  rw [bits_6_6 _ _ h1, bits_12_6 _ _ h2, bits_18_6 _ _ h3, bits_8_8 _ _ (by omega),
    bits_16_8 _ _ (by omega)]
  have h : ((i0 * 64 + i1) * 64 + i2) * 64 + i3
      = ((i0 * 4 + i1 / 16) * 256 + (i1 % 16 * 16 + i2 / 4)) * 256 + (i2 % 4 * 64 + i3) := by
    omega
  rw [h]

/-- A final group of two indices: the first 8 of the 12 bits. -/
theorem pair_bits (i0 i1 : Nat) (h1 : i1 < 64) :
    (bitsetToString 6 i0 ++ bitsetToString 6 i1).take 8
      = bitsetToString 8 ((i0 <<< 2) ||| (i1 >>> 4)) := by
  rw [dec_b0 i0 i1 h1, bits_6_6 _ _ h1]
  have h := bitsetToString_add 8 4 (i0 * 64 + i1)
  have e : (i0 * 64 + i1) / 2 ^ 4 = i0 * 4 + i1 / 16 := by norm_num; omega
  rw [e] at h
  have h12 : bitsetToString 12 (i0 * 64 + i1)
      = bitsetToString 8 (i0 * 4 + i1 / 16) ++ bitsetToString 4 (i0 * 64 + i1) := h
  rw [h12, List.take_left' (bitsetToString_length 8 _)]

/-- A final group of three indices: the first 16 of the 18 bits. -/
theorem triple_bits (i0 i1 i2 : Nat) (h1 : i1 < 64) (h2 : i2 < 64) :
    (bitsetToString 6 i0 ++ bitsetToString 6 i1 ++ bitsetToString 6 i2).take 16
      = bitsetToString 8 ((i0 <<< 2) ||| (i1 >>> 4))
        ++ bitsetToString 8 (((i1 &&& 0x0F) <<< 4) ||| (i2 >>> 2)) := by
  rw [dec_b0 i0 i1 h1, dec_b1 i1 i2 h2, bits_6_6 _ _ h1, bits_12_6 _ _ h2,
    bits_8_8 _ _ (by omega)]
  have h := bitsetToString_add 16 2 ((i0 * 64 + i1) * 64 + i2)
  have e : ((i0 * 64 + i1) * 64 + i2) / 2 ^ 2
      = (i0 * 4 + i1 / 16) * 256 + (i1 % 16 * 16 + i2 / 4) := by norm_num; omega
  rw [e] at h
  have h18 : bitsetToString 18 ((i0 * 64 + i1) * 64 + i2)
      = bitsetToString 16 ((i0 * 4 + i1 / 16) * 256 + (i1 % 16 * 16 + i2 / 4))
        ++ bitsetToString 2 ((i0 * 64 + i1) * 64 + i2) := h
  rw [h18, List.take_left' (bitsetToString_length 16 _)]

/-- Cutting the extra bits off the bit text of the indices leaves the bit text
of the bytes of section 4.2. -/
theorem rfcBytes_bits :
    ∀ (idxs : List Nat) (P : Nat), (∀ x ∈ idxs, x < 64) → (idxs.length + P) % 4 = 0 → P ≤ 2 →
      (idxs.flatMap (bitsetToString 6)).take (6 * idxs.length - 2 * P)
        = (rfcBytes idxs).flatMap (bitsetToString 8)
  | [], _, _, _, _ => by simp [rfcBytes]
  | [_], P, _, hm, hP => by simp only [List.length_singleton] at hm; omega
  | [i0, i1], P, h, hm, hP => by
    have hP2 : P = 2 := by simp only [List.length_cons, List.length_nil] at hm; omega
    subst hP2
    simp only [rfcBytes, List.flatMap_cons, List.flatMap_nil, List.append_nil, List.length_cons,
      List.length_nil]
    exact pair_bits i0 i1 (h i1 (by simp))
  | [i0, i1, i2], P, h, hm, hP => by
    have hP1 : P = 1 := by simp only [List.length_cons, List.length_nil] at hm; omega
    subst hP1
    simp only [rfcBytes, List.flatMap_cons, List.flatMap_nil, List.append_nil, List.length_cons,
      List.length_nil, ← List.append_assoc]
    exact triple_bits i0 i1 i2 (h i1 (by simp)) (h i2 (by simp))
  | i0 :: i1 :: i2 :: i3 :: rest, P, h, hm, hP => by
    have hm2 : (rest.length + P) % 4 = 0 := by
      simp only [List.length_cons] at hm; omega
    have ih := rfcBytes_bits rest P (fun x hx => h x (by simp [hx])) hm2 hP
    have hg := group4_bits i0 i1 i2 i3 (h i1 (by simp)) (h i2 (by simp)) (h i3 (by simp))
    have hlen : (bitsetToString 6 i0 ++ bitsetToString 6 i1 ++ bitsetToString 6 i2
        ++ bitsetToString 6 i3).length = 24 := by
      simp [bitsetToString_length]
    have hn : 6 * (i0 :: i1 :: i2 :: i3 :: rest).length - 2 * P
        = (bitsetToString 6 i0 ++ bitsetToString 6 i1 ++ bitsetToString 6 i2
            ++ bitsetToString 6 i3).length + (6 * rest.length - 2 * P) := by
      rw [hlen]
      simp only [List.length_cons]
      omega
    have hsplit : (i0 :: i1 :: i2 :: i3 :: rest).flatMap (bitsetToString 6)
        = (bitsetToString 6 i0 ++ bitsetToString 6 i1 ++ bitsetToString 6 i2
            ++ bitsetToString 6 i3) ++ rest.flatMap (bitsetToString 6) := by
      simp only [List.flatMap_cons, List.append_assoc]
    rw [hn, hsplit, List.take_append, ih, hg]
    simp only [rfcBytes, List.flatMap_cons, List.append_assoc]

theorem rfcBytes_lt : ∀ idxs : List Nat, (∀ x ∈ idxs, x < 64) → ∀ y ∈ rfcBytes idxs, y < 256
  | [], _ => by simp [rfcBytes]
  | [_], _ => by simp [rfcBytes]
  | [i0, i1], h => by
    have h0 := h i0 (by simp)
    have h1 := h i1 (by simp)
    intro y hy
    simp only [rfcBytes, List.mem_singleton, dec_b0 _ _ h1] at hy
    omega
  | [i0, i1, i2], h => by
    have h0 := h i0 (by simp)
    have h1 := h i1 (by simp)
    have h2 := h i2 (by simp)
    intro y hy
    simp only [rfcBytes, List.mem_cons, List.mem_singleton, dec_b0 _ _ h1, dec_b1 _ _ h2,
      List.mem_nil_iff, or_false] at hy
    omega
  | i0 :: i1 :: i2 :: i3 :: rest, h => by
    have ih := rfcBytes_lt rest (fun x hx => h x (by simp [hx]))
    have h0 := h i0 (by simp)
    have h1 := h i1 (by simp)
    have h2 := h i2 (by simp)
    have h3 := h i3 (by simp)
    intro y hy
    simp only [rfcBytes, List.mem_cons, dec_b0 _ _ h1, dec_b1 _ _ h2, dec_b2 _ _ h3] at hy
    rcases hy with hy | hy | hy | hy
    · omega
    · omega
    · omega
    · exact ih y hy

/-- The decoder of section 4.2 on alphabet characters followed by `P` pad characters. -/
theorem rfcDecode_eq :
    ∀ (body : List Char) (P : Nat), (∀ c ∈ body, c ≠ '=') → (body.length + P) % 4 = 0 → P ≤ 2 →
      rfcDecode (body ++ List.replicate P '=')
        = (rfcBytes (body.map alphabetIndex)).map Char.ofNat
  | [], P, _, hm, hP => by
    have hP0 : P = 0 := by simp only [List.length_nil] at hm; omega
    subst hP0
    simp [rfcDecode, rfcBytes]
  | [_], P, _, hm, hP => by simp only [List.length_singleton] at hm; omega
  | [c0, c1], P, _, hm, hP => by
    have hP2 : P = 2 := by simp only [List.length_cons, List.length_nil] at hm; omega
    subst hP2
    simp [rfcDecode, rfcBytes, List.replicate]
  | [c0, c1, c2], P, h, hm, hP => by
    have hP1 : P = 1 := by simp only [List.length_cons, List.length_nil] at hm; omega
    subst hP1
    have h2 : c2 ≠ '=' := h c2 (by simp)
    simp [rfcDecode, rfcBytes, List.replicate, h2]
  | c0 :: c1 :: c2 :: c3 :: rest, P, h, hm, hP => by
    have hm2 : (rest.length + P) % 4 = 0 := by
      simp only [List.length_cons] at hm; omega
    have ih := rfcDecode_eq rest P (fun x hx => h x (by simp [hx])) hm2 hP
    have h3 : c3 ≠ '=' := h c3 (by simp)
    simp only [List.cons_append, rfcDecode, if_neg h3, List.map_cons, rfcBytes]
    rw [← ih]
    rfl

/-! ## The decoder on alphabet characters followed by pad characters -/

theorem find_of_mem (c : Char) (hc : c ∈ base64_alphabet) :
    find base64_alphabet c = alphabetIndex c ∧ alphabetIndex c < 64 := by
  have h : base64_alphabet.indexOf c < base64_alphabet.length := List.indexOf_lt_length.mpr hc
  have h64 : base64_alphabet.length = 64 := by decide
  unfold find alphabetIndex
  rw [if_pos h]
  exact ⟨rfl, h64 ▸ h⟩

theorem ne_pad_of_mem (c : Char) (hc : c ∈ base64_alphabet) : c ≠ '=' := by
  intro h
  exact pad_not_mem_alphabet (h ▸ hc)

theorem count_body_pads (body : List Char) (P : Nat) (h : ∀ c ∈ body, c ≠ '=') :
    count (body ++ List.replicate P '=') '=' = P := by
  unfold count
  rw [List.count_append, List.count_replicate_self]
  have : List.count '=' body = 0 := List.count_eq_zero.mpr (fun hm => h _ hm rfl)
  omega

theorem removeExtraBits_take (P : Nat) (bits : List Char) (hP : P ≤ 2)
    (hl : 0 < P → 4 ≤ bits.length) :
    removeExtraBits P bits = .ok (bits.take (bits.length - 2 * P)) := by
  by_cases h2 : P = 2
  · subst h2
    have h4 := hl (by omega)
    have hsub : size_t_sub bits.length 4 = bits.length - 4 := by
      unfold size_t_sub; rw [if_pos h4]
    unfold removeExtraBits resize
    rw [if_pos rfl, hsub, if_pos (Nat.sub_le _ _)]
  · by_cases h1 : P = 1
    · subst h1
      have h4 := hl (by omega)
      have hsub : size_t_sub bits.length 2 = bits.length - 2 := by
        unfold size_t_sub; rw [if_pos (by omega)]
      unfold removeExtraBits resize
      rw [if_neg (by omega), if_pos rfl, hsub, if_pos (Nat.sub_le _ _)]
    · have h0 : P = 0 := by omega
      subst h0
      unfold removeExtraBits
      rw [if_neg (by omega), if_neg (by omega)]
      simp

/-- The decoder on a text of non-pad characters followed by `P ≤ 2` pad
characters, when the bit string left after the cut is the bit text of `bytes`. -/
theorem Base64ToString_body_pads (body : List Char) (P : Nat) (bytes : List Nat)
    (hbody : ∀ c ∈ body, c ≠ '=') (hP : P ≤ 2) (hne : 0 < P → body ≠ [])
    (hbytes : ∀ y ∈ bytes, y < 256)
    (hbits : (body.flatMap (fun c => bitsetToString 6 (find base64_alphabet c))).take
        (6 * body.length - 2 * P) = bytes.flatMap (bitsetToString 8)) :
    Base64ToString (body ++ List.replicate P '=') = .ok (bytes.map Char.ofNat) := by
  rw [Base64ToString_eq, count_body_pads body P hbody]
  have htake : (body ++ List.replicate P '=').take ((body ++ List.replicate P '=').length - P)
      = body := by
    rw [List.length_append, List.length_replicate, Nat.add_sub_cancel, List.take_left]
  have hlen : (body.flatMap (fun c => bitsetToString 6 (find base64_alphabet c))).length
      = 6 * body.length := length_flatMap_bits 6 _ body
  rw [htake, removeExtraBits_take P _ hP, bind_ok, hlen, hbits]
  · have h := decodeCharsLoop_octets bytes hbytes [] []
      (bytes.flatMap (bitsetToString 8)).length (by rw [length_flatMap_bits]; omega)
    simpa using h
  · intro hpos
    rw [hlen]
    have := List.length_pos.mpr (hne hpos)
    omega

/-- A text is what stands before its trailing pad characters, then those. -/
theorem split_trailingPads (s : List Char) :
    s = s.take (s.length - trailingPads s) ++ List.replicate (trailingPads s) '=' := by
  have h := List.takeWhile_append_dropWhile (fun c => c == '=') s.reverse
  have hrep : s.reverse.takeWhile (fun c => c == '=') = List.replicate (trailingPads s) '=' := by
    rw [List.eq_replicate_iff]
    refine ⟨rfl, fun c hc => ?_⟩
    have := List.mem_takeWhile_imp hc
    simpa using this
  have hs : s = (s.reverse.dropWhile (fun c => c == '=')).reverse
      ++ List.replicate (trailingPads s) '=' := by
    have h2 := congrArg List.reverse h
    rw [List.reverse_append, List.reverse_reverse, hrep, List.reverse_replicate] at h2
    exact h2.symm
  have hlen : ((s.reverse.dropWhile (fun c => c == '=')).reverse).length
      = s.length - trailingPads s := by
    have h3 := congrArg List.length hs
    rw [List.length_append, List.length_replicate] at h3
    omega
  have htake : List.take (s.length - trailingPads s)
      ((s.reverse.dropWhile (fun c => c == '=')).reverse
        ++ List.replicate (trailingPads s) '=')
      = (s.reverse.dropWhile (fun c => c == '=')).reverse := List.take_left' hlen
  rw [← hs] at htake
  rw [htake]
  exact hs

/-! ## Auxiliary facts for the claims -/

theorem ceil_third (N : Nat) : ⌈(N : ℚ) / 3⌉₊ = (N + 2) / 3 := by
  apply le_antisymm
  · rw [Nat.ceil_le, div_le_iff₀ (by norm_num)]
    have h : N ≤ (N + 2) / 3 * 3 := by omega
    exact_mod_cast h
  · rcases Nat.eq_zero_or_pos ((N + 2) / 3) with h0 | hpos
    · rw [h0]; exact Nat.zero_le _
    · have h1 : (N + 2) / 3 - 1 < ⌈(N : ℚ) / 3⌉₊ := by
        rw [Nat.lt_ceil, lt_div_iff₀ (by norm_num)]
        have h : ((N + 2) / 3 - 1) * 3 < N := by omega
        exact_mod_cast h
      omega

theorem eq_pads_of_count_eq_length (s : List Char) (h : count s '=' = s.length) :
    s = List.replicate s.length '=' := by
  rw [List.eq_replicate_iff]
  exact ⟨rfl, fun c hc => (List.count_eq_length.mp h c hc).symm⟩

/-- The decoder returns a value on every text in which some character is not `=`. -/
theorem Base64ToString_ok_of_count_lt (s : List Char) (h : count s '=' < s.length) :
    ∃ out, Base64ToString s = .ok out := by
  rw [Base64ToString_eq]
  have hbin : Binary ((s.take (s.length - count s '=')).flatMap
      (fun c => bitsetToString 6 (find base64_alphabet c))) :=
    Binary.flatMap _ _ (fun c => bitsetToString_binary 6 _)
  have hlen : ((s.take (s.length - count s '=')).flatMap
      (fun c => bitsetToString 6 (find base64_alphabet c))).length
        = 6 * (s.length - count s '=') := by
    rw [length_flatMap_bits, List.length_take, Nat.min_eq_left (Nat.sub_le _ _)]
  by_cases hP : count s '=' ≤ 2
  · rw [removeExtraBits_take _ _ hP (fun _ => by rw [hlen]; omega), bind_ok]
    exact decodeCharsLoop_ok _ (hbin.take _) _ _ _ (by omega)
  · have hrem : ∀ bits, removeExtraBits (count s '=') bits = .ok bits := by
      intro bits
      unfold removeExtraBits
      rw [if_neg (by omega), if_neg (by omega)]
    rw [hrem, bind_ok]
    exact decodeCharsLoop_ok _ hbin _ _ _ (by omega)

/-- The decoder returns a value on every text without a pad character and on
every text with more than two. -/
theorem Base64ToString_ok_of_count (s : List Char) (h : count s '=' = 0 ∨ 2 < count s '=') :
    ∃ out, Base64ToString s = .ok out := by
  rw [Base64ToString_eq]
  have hbin : Binary ((s.take (s.length - count s '=')).flatMap
      (fun c => bitsetToString 6 (find base64_alphabet c))) :=
    Binary.flatMap _ _ (fun c => bitsetToString_binary 6 _)
  have hrem : ∀ bits, removeExtraBits (count s '=') bits = .ok bits := by
    intro bits
    unfold removeExtraBits
    rw [if_neg (by omega), if_neg (by omega)]
  rw [hrem, bind_ok]
  exact decodeCharsLoop_ok _ hbin _ _ _ (by omega)

/-- A well-formed text is alphabet characters followed by at most two pads. -/
theorem WellFormed.split {s : List Char} (h : WellFormed s) :
    ∃ (body : List Char) (P : Nat), s = body ++ List.replicate P '=' ∧
      (∀ c ∈ body, c ∈ base64_alphabet) ∧ P ≤ 2 ∧ (body.length + P) % 4 = 0 := by
  refine ⟨s.take (s.length - trailingPads s), trailingPads s, split_trailingPads s, h.2.2,
    h.2.1, ?_⟩
  have hle : trailingPads s ≤ s.length := by
    unfold trailingPads
    exact (List.takeWhile_sublist _).length_le.trans (by simp)
  rw [List.length_take, Nat.min_eq_left (Nat.sub_le _ _), Nat.sub_add_cancel hle]
  exact h.1

/-- The decoder on alphabet characters followed by at most two pads. -/
theorem Base64ToString_wellFormed (body : List Char) (P : Nat)
    (hbody : ∀ c ∈ body, c ∈ base64_alphabet) (hP : P ≤ 2) (hm : (body.length + P) % 4 = 0) :
    Base64ToString (body ++ List.replicate P '=')
      = .ok (rfcDecode (body ++ List.replicate P '=')) := by
  have hne : ∀ c ∈ body, c ≠ '=' := fun c hc => ne_pad_of_mem c (hbody c hc)
  have h64 : ∀ x ∈ body.map alphabetIndex, x < 64 := by
    intro x hx
    obtain ⟨c, hc, rfl⟩ := List.mem_map.mp hx
    exact (find_of_mem c (hbody c hc)).2
  have hfm : body.flatMap (fun c => bitsetToString 6 (find base64_alphabet c))
      = (body.map alphabetIndex).flatMap (bitsetToString 6) := by
    rw [List.flatMap_map]
    clear hm h64 hne
    induction body with
    | nil => rfl
    | cons c cs ih =>
      rw [List.flatMap_cons, List.flatMap_cons, (find_of_mem c (hbody c (by simp))).1,
        ih (fun x hx => hbody x (by simp [hx]))]
  have hbits := rfcBytes_bits (body.map alphabetIndex) P h64 (by simpa using hm) hP
  rw [List.length_map, ← hfm] at hbits
  rw [rfcDecode_eq body P hne hm hP]
  refine Base64ToString_body_pads body P _ hne hP ?_ (rfcBytes_lt _ h64) hbits
  intro hpos hnil
  subst hnil
  simp only [List.length_nil] at hm
  omega

/-! ## Further facts about the decoder -/

theorem StringToBase64_eq_rfcEncode (charSigned : Bool) (b : List Char) (hb : ByteString b) :
    StringToBase64 charSigned b = .ok (rfcEncode b) := by
  rw [rfcEncode_eq]
  apply StringToBase64_of_sextets charSigned b (rfcIndices b) (rfcIndices_lt b hb)
  rw [alignBitString_source, sourceBitString_eq]
  exact aligned_bits_rfcIndices b hb

theorem decoderBitString_eq (s : List Char) :
    decoderBitString s
      = .ok ((s.take (s.length - count s '=')).flatMap
          (fun c => bitsetToString 6 (find base64_alphabet c))) := by
  unfold decoderBitString
  have hsub : size_t_sub s.length (count s '=') = s.length - count s '=' := by
    unfold size_t_sub; rw [if_pos (count_le_length s)]
  simp only [hsub]
  exact decodeBitsLoop_take s _ (Nat.sub_le _ _)

theorem decoderCutBitString_eq (s : List Char) :
    decoderCutBitString s
      = removeExtraBits (count s '=')
          ((s.take (s.length - count s '=')).flatMap
            (fun c => bitsetToString 6 (find base64_alphabet c))) := by
  unfold decoderCutBitString
  rw [decoderBitString_eq, bind_ok]

/-- The decoder is the byte loop run on the shortened bit string. -/
theorem Base64ToString_cut (s : List Char) :
    Base64ToString s
      = decoderCutBitString s >>=
          fun bit_string => decodeCharsLoop bit_string bit_string.length 0 [] := by
  rw [Base64ToString_eq, decoderCutBitString_eq]

theorem discardedBits_eq (s : List Char) :
    discardedBits s
      = removeExtraBits (count s '=')
          ((s.take (s.length - count s '=')).flatMap
            (fun c => bitsetToString 6 (find base64_alphabet c))) >>=
        fun shortened => .ok (6 * (s.length - count s '=') - shortened.length) := by
  unfold discardedBits
  rw [decoderBitString_eq, bind_ok, length_flatMap_bits, List.length_take,
    Nat.min_eq_left (Nat.sub_le _ _)]
  rfl

/-- The decoder returns a value on every text other than `=` and `==`. -/
theorem Base64ToString_ok_of_ne (s : List Char) (h1 : s ≠ ['=']) (h2 : s ≠ ['=', '=']) :
    ∃ out, Base64ToString s = .ok out := by
  rcases Nat.lt_or_ge (count s '=') s.length with hlt | hge
  · exact Base64ToString_ok_of_count_lt s hlt
  · have heq : count s '=' = s.length := Nat.le_antisymm (count_le_length s) hge
    have hrep := eq_pads_of_count_eq_length s heq
    apply Base64ToString_ok_of_count
    rw [heq]
    by_contra hc
    have hl : s.length = 1 ∨ s.length = 2 := by omega
    rcases hl with hl | hl
    · rw [hl] at hrep; exact h1 hrep
    · rw [hl] at hrep; exact h2 hrep

/-- The bit string of a text of non-pad characters followed by `P` pads. -/
theorem bits_body_pads (body : List Char) (P : Nat) (hbody : ∀ c ∈ body, c ≠ '=') :
    ((body ++ List.replicate P '=').take
        ((body ++ List.replicate P '=').length - count (body ++ List.replicate P '=') '=')).flatMap
        (fun c => bitsetToString 6 (find base64_alphabet c))
      = body.flatMap (fun c => bitsetToString 6 (find base64_alphabet c)) := by
  rw [count_body_pads body P hbody, List.length_append, List.length_replicate,
    Nat.add_sub_cancel, List.take_left]

/-- The shortened bit string of a well-formed text. -/
theorem decoderCutBitString_body_pads (body : List Char) (P : Nat)
    (hbody : ∀ c ∈ body, c ≠ '=') (hP : P ≤ 2) (hm : (body.length + P) % 4 = 0) :
    decoderCutBitString (body ++ List.replicate P '=')
      = .ok ((body.flatMap (fun c => bitsetToString 6 (find base64_alphabet c))).take
          (6 * body.length - 2 * P)) := by
  have hlen : (body.flatMap (fun c => bitsetToString 6 (find base64_alphabet c))).length
      = 6 * body.length := length_flatMap_bits 6 _ body
  rw [decoderCutBitString_eq, bits_body_pads body P hbody, count_body_pads body P hbody,
    removeExtraBits_take P _ hP (by intro hpos; rw [hlen]; omega), hlen]

theorem not_mem_find (c : Char) (hc : c ∉ base64_alphabet) :
    find base64_alphabet c = npos := by
  unfold find
  rw [if_neg (fun h => hc (List.indexOf_lt_length.mp h))]

theorem bitsetOfULL_npos : bitsetOfULL 6 npos = 63 := by decide

/-- The result of the decoder depends only on the number of `=` and on the
bits of the characters before the last `count` positions. -/
theorem Base64ToString_congr (s t : List Char) (hc : count s '=' = count t '=')
    (hbits : (s.take (s.length - count s '=')).flatMap
        (fun c => bitsetToString 6 (find base64_alphabet c))
      = (t.take (t.length - count t '=')).flatMap
        (fun c => bitsetToString 6 (find base64_alphabet c))) :
    Base64ToString s = Base64ToString t := by
  rw [Base64ToString_eq s, Base64ToString_eq t, hbits, hc]

theorem flatMap_take_set {f : Char → List Char} (x c : Char) (hf : f x = f c) :
    ∀ (s : List Char) (i n : Nat), s[i]? = some c →
      ((s.set i x).take n).flatMap f = (s.take n).flatMap f
  | [], _, _, h => by simp at h
  | _ :: _, 0, 0, _ => by simp
  | a :: s, 0, n + 1, h => by
    have ha : a = c := by simpa using h
    subst ha
    simp [hf]
  | _ :: _, _ + 1, 0, _ => by simp
  | a :: s, i + 1, n + 1, h => by
    have h2 : s[i]? = some c := by simpa using h
    simp [flatMap_take_set x c hf s i n h2]

theorem count_set_slash (s : List Char) (i : Nat) (c : Char) (hi : s[i]? = some c)
    (hc : c ≠ '=') : count (s.set i '/') '=' = count s '=' := by
  have hlt : i < s.length := by
    by_contra hge
    rw [List.getElem?_eq_none (by omega)] at hi
    cases hi
  have hget : s[i] = c := by
    rw [List.getElem?_eq_getElem hlt] at hi
    exact Option.some.inj hi
  unfold count
  rw [List.count_set _ _ _ _ hlt, hget]
  have h1 : (c == '=') = false := by simpa using hc
  have h2 : ('/' == '=') = false := by decide
  simp [h1, h2]

theorem toNat_ofNat_byte (n : Nat) (h : n < 256) : (Char.ofNat n).toNat = n := by
  have hv : n.isValidChar := Or.inl (by omega)
  unfold Char.ofNat
  rw [dif_pos hv]
  rfl

theorem alphabetChar_alphabetIndex : ∀ c ∈ base64_alphabet, alphabetChar (alphabetIndex c) = c := by
  decide

theorem bitsetToString_zero (n : Nat) : bitsetToString n 0 = List.replicate n '0' := by
  induction n with
  | zero => rfl
  | succ n ih =>
    simp only [bitsetToString, Nat.zero_div, ih]
    rw [List.replicate_succ']
    rfl

/-- A value whose low `n` bits are zero ends in `n` zero characters. -/
theorem low_bits_zero (m n v : Nat) (h : v % 2 ^ n = 0) :
    bitsetToString (m + n) v = bitsetToString m (v / 2 ^ n) ++ List.replicate n '0' := by
  rw [bitsetToString_add, ← bitsetToString_mod n v, h, bitsetToString_zero]

/-- When the low `2 * P` bits of the last index are zero, the cut removes only zeros. -/
theorem cut_zero_bits (idxs : List Nat) (last P : Nat) (hP : P ≤ 2)
    (hz : last % 2 ^ (2 * P) = 0) :
    (idxs ++ [last]).flatMap (bitsetToString 6)
      = ((idxs ++ [last]).flatMap (bitsetToString 6)).take (6 * (idxs ++ [last]).length - 2 * P)
        ++ List.replicate (2 * P) '0' := by
  have hsplit : bitsetToString 6 last
      = bitsetToString (6 - 2 * P) (last / 2 ^ (2 * P)) ++ List.replicate (2 * P) '0' := by
    have h := low_bits_zero (6 - 2 * P) (2 * P) last hz
    rw [Nat.sub_add_cancel (by omega)] at h
    exact h
  have hA : (idxs.flatMap (bitsetToString 6)).length = 6 * idxs.length :=
    length_flatMap_bits 6 (fun x => x) idxs
  have hn : 6 * (idxs ++ [last]).length - 2 * P
      = (idxs.flatMap (bitsetToString 6)
          ++ bitsetToString (6 - 2 * P) (last / 2 ^ (2 * P))).length := by
    simp only [List.length_append, List.length_singleton, hA, bitsetToString_length]
    omega
  rw [hn, List.flatMap_append, List.flatMap_singleton, hsplit, ← List.append_assoc,
    List.take_left]

theorem lastIndex_body_pads (init : List Char) (last : Char) (P : Nat)
    (h : ∀ c ∈ init ++ [last], c ≠ '=') :
    lastIndex ((init ++ [last]) ++ List.replicate P '=') = alphabetIndex last := by
  unfold lastIndex
  rw [trailingPads_append_pads _ _ h, List.length_append (init ++ [last]),
    List.length_replicate, Nat.add_sub_cancel, List.take_left, List.getLast?_concat]

theorem flatMap_find_alphabet (body : List Char) (hbody : ∀ c ∈ body, c ∈ base64_alphabet) :
    body.flatMap (fun c => bitsetToString 6 (find base64_alphabet c))
      = (body.map alphabetIndex).flatMap (bitsetToString 6) := by
  rw [List.flatMap_map]
  induction body with
  | nil => rfl
  | cons c cs ih =>
    rw [List.flatMap_cons, List.flatMap_cons, (find_of_mem c (hbody c (by simp))).1,
      ih (fun x hx => hbody x (by simp [hx]))]

theorem alphabetIndex_lt (body : List Char) (hbody : ∀ c ∈ body, c ∈ base64_alphabet) :
    ∀ x ∈ body.map alphabetIndex, x < 64 := by
  intro x hx
  obtain ⟨c, hc, rfl⟩ := List.mem_map.mp hx
  exact (find_of_mem c (hbody c hc)).2

theorem flatMap_ofNat_bits (l : List Nat) (h : ∀ y ∈ l, y < 256) :
    (l.map Char.ofNat).flatMap (fun c => bitsetToString 8 c.toNat)
      = l.flatMap (bitsetToString 8) := by
  induction l with
  | nil => rfl
  | cons y ys ih =>
    rw [List.map_cons, List.flatMap_cons, List.flatMap_cons, toNat_ofNat_byte y (h y (by simp)),
      ih (fun z hz => h z (by simp [hz]))]

theorem map_alphabetChar_alphabetIndex (body : List Char)
    (hbody : ∀ c ∈ body, c ∈ base64_alphabet) :
    (body.map alphabetIndex).map alphabetChar = body := by
  induction body with
  | nil => rfl
  | cons c cs ih =>
    rw [List.map_cons, List.map_cons, alphabetChar_alphabetIndex c (hbody c (by simp)),
      ih (fun x hx => hbody x (by simp [hx]))]

/-- Decoding a canonical well-formed text and encoding the bytes gives the text back. -/
theorem encode_decoded_canonical (charSigned : Bool) (body : List Char) (P : Nat)
    (hbody : ∀ c ∈ body, c ∈ base64_alphabet) (hP : P ≤ 2) (hm : (body.length + P) % 4 = 0)
    (hcanon : Canonical (body ++ List.replicate P '=')) :
    ∃ bytes, Base64ToString (body ++ List.replicate P '=') = .ok bytes ∧
      StringToBase64 charSigned bytes = .ok (body ++ List.replicate P '=') := by
  have hne : ∀ c ∈ body, c ≠ '=' := fun c hc => ne_pad_of_mem c (hbody c hc)
  have h64 := alphabetIndex_lt body hbody
  have hfm := flatMap_find_alphabet body hbody
  have hbits := rfcBytes_bits (body.map alphabetIndex) P h64 (by simpa using hm) hP
  have hlt := rfcBytes_lt _ h64
  have hnil : 0 < P → body ≠ [] := by
    intro hpos hb
    subst hb
    simp only [List.length_nil] at hm
    omega
  have hdec : Base64ToString (body ++ List.replicate P '=')
      = .ok ((rfcBytes (body.map alphabetIndex)).map Char.ofNat) := by
    refine Base64ToString_body_pads body P _ hne hP hnil hlt ?_
    rw [hfm]
    simpa using hbits
  refine ⟨_, hdec, ?_⟩
  have hsrc : sourceBitString charSigned ((rfcBytes (body.map alphabetIndex)).map Char.ofNat)
      = (rfcBytes (body.map alphabetIndex)).flatMap (bitsetToString 8) := by
    rw [sourceBitString_eq, flatMap_ofNat_bits _ hlt]
  have hzero : (body.map alphabetIndex).flatMap (bitsetToString 6)
      = ((body.map alphabetIndex).flatMap (bitsetToString 6)).take
          (6 * (body.map alphabetIndex).length - 2 * P) ++ List.replicate (2 * P) '0' := by
    rcases Nat.eq_zero_or_pos P with hP0 | hpos
    · subst hP0
      rw [List.take_of_length_le (by rw [length_flatMap_bits 6 (fun x => x)]; omega)]
      simp
    · rcases List.eq_nil_or_concat body with hb | ⟨init, last, hb⟩
      · exact absurd hb (hnil hpos)
      · rw [List.concat_eq_append] at hb
        subst hb
        have hli := lastIndex_body_pads init last P hne
        have htp := trailingPads_append_pads (init ++ [last]) P hne
        have hz : alphabetIndex last % 2 ^ (2 * P) = 0 := by
          have hP12 : P = 1 ∨ P = 2 := by omega
          rcases hP12 with h1 | h2
          · subst h1
            have := hcanon.2 htp
            rw [hli] at this
            exact this
          · subst h2
            have := hcanon.1 htp
            rw [hli] at this
            exact this
        rw [List.map_append, List.map_singleton]
        exact cut_zero_bits _ _ P hP hz
  have hlen : 8 * (rfcBytes (body.map alphabetIndex)).length
      = 6 * body.length - 2 * P := by
    have h := congrArg List.length hbits
    rw [List.length_take, length_flatMap_bits 6 (fun x => x),
      length_flatMap_bits 8 (fun x => x), List.length_map] at h
    omega
  have hpad : padCount ((rfcBytes (body.map alphabetIndex)).map Char.ofNat).length = P := by
    rw [List.length_map]
    unfold padCount
    split_ifs <;> omega
  have halign : alignBitString
      (sourceBitString charSigned ((rfcBytes (body.map alphabetIndex)).map Char.ofNat))
      = (body.map alphabetIndex).flatMap (bitsetToString 6) := by
    rw [alignBitString_source, hsrc, hpad, ← hbits]
    exact hzero.symm
  rw [StringToBase64_of_sextets charSigned _ _ h64 halign, hpad,
    map_alphabetChar_alphabetIndex body hbody]

theorem padCount_add (M N : Nat) (h : M % 3 = 0) : padCount (M + N) = padCount N := by
  unfold padCount
  have : (M + N) % 3 = N % 3 := by omega
  rw [this]

/-- The encoder distributes over concatenation after a whole number of groups. -/
theorem StringToBase64_append (charSigned : Bool) (a b : List Char) (ha : a.length % 3 = 0) :
    ∃ x y, StringToBase64 charSigned a = .ok x ∧ StringToBase64 charSigned b = .ok y ∧
      StringToBase64 charSigned (a ++ b) = .ok (x ++ y) := by
  obtain ⟨ia, _, ha64, habits, haenc⟩ := StringToBase64_shape charSigned a
  obtain ⟨ib, _, hb64, hbbits, hbenc⟩ := StringToBase64_shape charSigned b
  have hpa : padCount a.length = 0 := by
    unfold padCount
    rw [if_neg (by omega), if_neg (by omega)]
  refine ⟨_, _, haenc, hbenc, ?_⟩
  have h64 : ∀ x ∈ ia ++ ib, x < 64 := by
    intro x hx
    rcases List.mem_append.mp hx with h | h
    · exact ha64 x h
    · exact hb64 x h
  have hsrc : sourceBitString charSigned (a ++ b)
      = sourceBitString charSigned a ++ sourceBitString charSigned b := by
    rw [sourceBitString_eq, sourceBitString_eq, sourceBitString_eq, List.flatMap_append]
  have hbits : alignBitString (sourceBitString charSigned (a ++ b))
      = (ia ++ ib).flatMap (bitsetToString 6) := by
    rw [alignBitString_source, hpa] at habits
    rw [alignBitString_source] at hbbits
    rw [alignBitString_source, hsrc, List.length_append, padCount_add _ _ ha,
      List.flatMap_append, ← habits, ← hbbits]
    simp
  rw [StringToBase64_of_sextets charSigned (a ++ b) (ia ++ ib) h64 hbits, List.length_append,
    padCount_add _ _ ha, hpa]
  simp

theorem rfcBytes_length (idxs : List Nat) (P : Nat) (h64 : ∀ x ∈ idxs, x < 64)
    (hm : (idxs.length + P) % 4 = 0) (hP : P ≤ 2) :
    8 * (rfcBytes idxs).length = 6 * idxs.length - 2 * P := by
  have h := congrArg List.length (rfcBytes_bits idxs P h64 hm hP)
  rw [List.length_take, length_flatMap_bits 6 (fun x => x),
    length_flatMap_bits 8 (fun x => x)] at h
  omega

theorem find_slash : find base64_alphabet '/' = 63 := by decide

theorem not_found_bits (c : Char) (hc : c ∉ base64_alphabet) :
    bitsetToString 6 (find base64_alphabet '/') = bitsetToString 6 (find base64_alphabet c) := by
  rw [not_mem_find c hc, find_slash, ← bitsetToString_mod 6 npos]
  rfl

/-! ## Claims -/

/-- C1 (round trip): for every byte sequence `b`, of any length and with any
byte values, and for either signedness of `char`, `StringToBase64` returns a
text and `Base64ToString` of that text returns `b`. -/
theorem roundtrip (charSigned : Bool) (b : List Char) (hb : ByteString b) :
    ∃ text, StringToBase64 charSigned b = .ok text ∧ Base64ToString text = .ok b := by
  obtain ⟨idxs, hlen, h64, hbits, henc⟩ := StringToBase64_shape charSigned b
  refine ⟨_, henc, ?_⟩
  have hdec := Base64ToString_body_pads (idxs.map alphabetChar) (padCount b.length)
    (b.map Char.toNat) (alphabetChars_ne_pad idxs h64) (padCount_le _) ?_ ?_ ?_
  · rw [hdec, List.map_map]
    have hid : (Char.ofNat ∘ Char.toNat) = id := funext (fun c => Char.ofNat_toNat c)
    rw [hid, List.map_id]
  · intro hpos hnil
    have h0 : idxs.length = 0 := by simpa using congrArg List.length hnil
    unfold padCount at hpos
    rw [h0] at hlen
    split_ifs at hpos hlen <;> omega
  · intro y hy
    obtain ⟨c, hc, rfl⟩ := List.mem_map.mp hy
    exact hb c hc
  · have hfm : (idxs.map alphabetChar).flatMap
        (fun c => bitsetToString 6 (find base64_alphabet c))
        = idxs.flatMap (bitsetToString 6) := by
      rw [List.flatMap_map]
      clear hlen hbits henc
      induction idxs with
      | nil => rfl
      | cons x xs ih =>
        rw [List.flatMap_cons, List.flatMap_cons, find_alphabetChar x (h64 x (by simp)),
          ih (fun y hy => h64 y (by simp [hy]))]
    rw [hfm, ← hbits, alignBitString_source, List.length_map, hlen, sourceBitString_eq,
      List.flatMap_map]
    have hl : (b.flatMap (fun c => bitsetToString 8 c.toNat)).length = 8 * b.length :=
      length_flatMap_bits 8 _ b
    have hn : 6 * (4 * (b.length / 3) + (if b.length % 3 = 0 then 0 else b.length % 3 + 1))
        - 2 * padCount b.length = 8 * b.length := by
      unfold padCount
      split_ifs <;> omega
    rw [hn]
    exact List.take_left' hl

/-- Witness of `roundtrip`: the two bytes `0xC8 0xFF` on a platform with signed `char`. -/
theorem roundtrip_witness :
    ByteString [Char.ofNat 200, Char.ofNat 255] ∧
      ∃ text, StringToBase64 true [Char.ofNat 200, Char.ofNat 255] = .ok text ∧
        Base64ToString text = .ok [Char.ofNat 200, Char.ofNat 255] :=
  ⟨by decide, roundtrip true [Char.ofNat 200, Char.ofNat 255] (by decide)⟩

/-- C2, counterexample: the text `Zm9vYg=` has length 7, not a multiple of 4,
and `Base64ToString` does not reject it: it returns the five bytes `foob\0`,
and the decode-mode run exits with code 0. -/
theorem decode_accepts_bad_length :
    "Zm9vYg=".toList.length % 4 ≠ 0 ∧
      Base64ToString "Zm9vYg=".toList = .ok ['f', 'o', 'o', 'b', Char.ofNat 0] ∧
      decodeModeExit "Zm9vYg=".toList = some 0 := by
  decide

/-- C2, amended: the decoder validates nothing.  On every text other than `=`
and `==`, malformed or not, `Base64ToString` returns a byte sequence and the
decode-mode run exits with code 0. -/
theorem decode_never_rejects (s : List Char) (h1 : s ≠ ['=']) (h2 : s ≠ ['=', '=']) :
    (∃ out, Base64ToString s = .ok out) ∧ decodeModeExit s = some 0 := by
  have hok : ∃ out, Base64ToString s = .ok out := by
    rcases Nat.lt_or_ge (count s '=') s.length with hlt | hge
    · exact Base64ToString_ok_of_count_lt s hlt
    · have heq : count s '=' = s.length := Nat.le_antisymm (count_le_length s) hge
      have hrep := eq_pads_of_count_eq_length s heq
      apply Base64ToString_ok_of_count
      rw [heq]
      by_contra hc
      have hl : s.length = 1 ∨ s.length = 2 := by omega
      rcases hl with hl | hl
      · rw [hl] at hrep; exact h1 hrep
      · rw [hl] at hrep; exact h2 hrep
  refine ⟨hok, ?_⟩
  obtain ⟨out, hout⟩ := hok
  unfold decodeModeExit
  rw [hout]

/-- Witness of `decode_never_rejects`: `Zm9v=A==`, with a pad character in the middle. -/
theorem decode_never_rejects_witness :
    "Zm9v=A==".toList ≠ ['='] ∧ "Zm9v=A==".toList ≠ ['=', '='] ∧
      (∃ out, Base64ToString "Zm9v=A==".toList = .ok out) ∧
      decodeModeExit "Zm9v=A==".toList = some 0 :=
  ⟨by decide, by decide, decode_never_rejects "Zm9v=A==".toList (by decide) (by decide)⟩

/-- C3, failing input: on the texts `=` and `==` the decoder does not yield a
result.  The bit string is empty, `bit_string.size() - 2` (or `- 4`) wraps to
a size beyond `max_size()`, and `resize` throws `std::length_error`. -/
theorem decode_aborts_on_pads :
    Base64ToString ['='] = .error .lengthError ∧
      Base64ToString ['=', '='] = .error .lengthError ∧
      decodeModeExit ['='] = none := by
  decide

/-- C4 (length law): for every byte sequence of length `N` the encoder returns
a text of length `4 * ⌈N / 3⌉`, which is a multiple of 4. -/
theorem encode_length_law (charSigned : Bool) (b : List Char) :
    ∃ out, StringToBase64 charSigned b = .ok out ∧
      out.length = 4 * ⌈(b.length : ℚ) / 3⌉₊ ∧ out.length % 4 = 0 := by
  obtain ⟨idxs, hlen, _, _, henc⟩ := StringToBase64_shape charSigned b
  have hl : (idxs.map alphabetChar ++ List.replicate (padCount b.length) '=').length
      = 4 * ((b.length + 2) / 3) := by
    rw [List.length_append, List.length_map, List.length_replicate, hlen]
    unfold padCount
    split_ifs <;> omega
  refine ⟨_, henc, ?_, ?_⟩
  · rw [hl, ceil_third]
  · rw [hl]; omega

/-- C5 (padding law): the number of trailing `=` of the encoder's output is 0
when `N mod 3 = 0`, 1 when `N mod 3 = 2` and 2 when `N mod 3 = 1`. -/
theorem encode_padding_law (charSigned : Bool) (b : List Char) :
    ∃ out, StringToBase64 charSigned b = .ok out ∧
      trailingPads out
        = if b.length % 3 = 0 then 0 else if b.length % 3 = 2 then 1 else 2 := by
  obtain ⟨idxs, _, h64, _, henc⟩ := StringToBase64_shape charSigned b
  refine ⟨_, henc, ?_⟩
  rw [trailingPads_append_pads _ _ (alphabetChars_ne_pad idxs h64)]
  unfold padCount
  split_ifs <;> omega

/-- C6 (alphabet closure): every character of the encoder's output is one of
the 64 alphabet characters or `=`; a `=` stands only at one of the last two
positions, and every character after a `=` is a `=`. -/
theorem encode_alphabet_closure (charSigned : Bool) (b : List Char) :
    ∃ out, StringToBase64 charSigned b = .ok out ∧
      base64_alphabet.length = 64 ∧
      (∀ c ∈ out, c ∈ base64_alphabet ∨ c = '=') ∧
      (∀ i, out[i]? = some '=' → out.length ≤ i + 2) ∧
      (∀ i j, out[i]? = some '=' → i ≤ j → j < out.length → out[j]? = some '=') := by
  obtain ⟨idxs, _, h64, _, henc⟩ := StringToBase64_shape charSigned b
  have hne := alphabetChars_ne_pad idxs h64
  refine ⟨_, henc, by decide, ?_, ?_, ?_⟩
  · intro c hc
    rcases List.mem_append.mp hc with h | h
    · exact Or.inl (alphabetChars_mem idxs h64 c h)
    · exact Or.inr (List.eq_of_mem_replicate h)
  · intro i hi
    have h1 := pad_position _ _ i hne hi
    have h2 := padCount_le b.length
    rw [List.length_append, List.length_replicate]
    omega
  · intro i j hi hij hj
    exact pad_suffix _ _ j (Nat.le_trans (pad_position _ _ i hne hi) hij) hj

/-- C7 (refinement): on every byte sequence, for either signedness of `char`,
the bit-string encoder returns what the direct bit-shift encoder of RFC 4648
computes from the unsigned byte values. -/
theorem encode_refines_rfc (charSigned : Bool) (b : List Char) (hb : ByteString b) :
    StringToBase64 charSigned b = .ok (rfcEncode b) := by
  rw [rfcEncode_eq]
  apply StringToBase64_of_sextets charSigned b (rfcIndices b) (rfcIndices_lt b hb)
  rw [alignBitString_source, sourceBitString_eq]
  exact aligned_bits_rfcIndices b hb

/-- Witness of `encode_refines_rfc`: four bytes, two of them above `0x7F`. -/
theorem encode_refines_rfc_witness :
    ByteString [Char.ofNat 0xE2, Char.ofNat 0x82, Char.ofNat 0xAC, 'x'] ∧
      StringToBase64 true [Char.ofNat 0xE2, Char.ofNat 0x82, Char.ofNat 0xAC, 'x']
        = .ok (rfcEncode [Char.ofNat 0xE2, Char.ofNat 0x82, Char.ofNat 0xAC, 'x']) :=
  ⟨by decide, encode_refines_rfc true _ (by decide)⟩

/-- C8 (refinement): on every well-formed text the bit-string decoder returns
the bytes of the direct bit-shift decoder; `SGVsbG8sIHdvcmxkIQ==` decodes to
`Hello, world!`. -/
theorem decode_refines_rfc (s : List Char) (h : WellFormed s) :
    Base64ToString s = .ok (rfcDecode s) ∧
      Base64ToString "SGVsbG8sIHdvcmxkIQ==".toList = .ok "Hello, world!".toList := by
  refine ⟨?_, by decide⟩
  obtain ⟨body, P, rfl, hbody, hP, hm⟩ := h.split
  exact Base64ToString_wellFormed body P hbody hP hm

/-- Witness of `decode_refines_rfc`: the text `Zm9vYmE=`. -/
theorem decode_refines_rfc_witness :
    WellFormed "Zm9vYmE=".toList ∧
      Base64ToString "Zm9vYmE=".toList = .ok (rfcDecode "Zm9vYmE=".toList) ∧
      Base64ToString "SGVsbG8sIHdvcmxkIQ==".toList = .ok "Hello, world!".toList :=
  ⟨by decide, decode_refines_rfc "Zm9vYmE=".toList (by decide)⟩

/-- C9 (RFC 4648 test vectors): the encoder maps the empty text to the empty
text, `f` to `Zg==`, `fo` to `Zm8=`, `foo` to `Zm9v`, `foob` to `Zm9vYg==`,
`fooba` to `Zm9vYmE=`, `foobar` to `Zm9vYmFy` and `Hi` to the four bytes `SGk=`. -/
theorem encode_test_vectors (charSigned : Bool) :
    StringToBase64 charSigned "".toList = .ok "".toList ∧
      StringToBase64 charSigned "f".toList = .ok "Zg==".toList ∧
      StringToBase64 charSigned "fo".toList = .ok "Zm8=".toList ∧
      StringToBase64 charSigned "foo".toList = .ok "Zm9v".toList ∧
      StringToBase64 charSigned "foob".toList = .ok "Zm9vYg==".toList ∧
      StringToBase64 charSigned "fooba".toList = .ok "Zm9vYmE=".toList ∧
      StringToBase64 charSigned "foobar".toList = .ok "Zm9vYmFy".toList ∧
      StringToBase64 charSigned "Hi".toList = .ok "SGk=".toList ∧
      "SGk=".toList.length = 4 := by
  cases charSigned <;> decide

/-- C10 (no error conditions): the aligned bit string has a length that is a
multiple of 6; at every index the loop visits, `substr` returns a complete
slice of 6 characters, the slice is a binary text, its value is below 64 and
is the index of a character of the alphabet table; the encoder returns a text;
and the empty sequence maps to the empty text. -/
theorem encode_no_error (charSigned : Bool) (b : List Char) :
    (alignBitString (sourceBitString charSigned b)).length % 6 = 0 ∧
      (∀ i, i < (alignBitString (sourceBitString charSigned b)).length → i % 6 = 0 →
        ∃ slice n ch, substr (alignBitString (sourceBitString charSigned b)) i 6 = .ok slice ∧
          slice.length = 6 ∧ i + 6 ≤ (alignBitString (sourceBitString charSigned b)).length ∧
          bitsetOfString 6 slice = .ok n ∧ n < 64 ∧ n < base64_alphabet.length ∧
          charAt base64_alphabet n = .ok ch ∧ ch ∈ base64_alphabet) ∧
      (∃ out, StringToBase64 charSigned b = .ok out) ∧
      StringToBase64 charSigned [] = .ok [] := by
  have hlen := alignBitString_length charSigned b
  have hbin := alignBitString_binary charSigned b
  refine ⟨by omega, ?_, ?_, by cases charSigned <;> decide⟩
  · intro i hi h6
    have hsl : (((alignBitString (sourceBitString charSigned b)).drop i).take 6).length
        = 6 := by
      rw [List.length_take, List.length_drop]; omega
    have hv := binaryValue_lt (((alignBitString (sourceBitString charSigned b)).drop i).take 6)
    rw [hsl] at hv
    have hv64 : binaryValue (((alignBitString (sourceBitString charSigned b)).drop i).take 6)
        < 64 := hv
    refine ⟨_, _, alphabetChar _, ?_, hsl, by omega, ?_, hv64, ?_, charAt_alphabet _ hv64,
      alphabetChar_mem _ hv64⟩
    · unfold substr; rw [if_neg (by omega)]
    · rw [bitsetOfString_of_binary 6 _ ((hbin.drop i).take 6),
        List.take_of_length_le (by omega)]
    · have h64 : base64_alphabet.length = 64 := by decide
      omega
  · obtain ⟨idxs, _, _, _, henc⟩ := StringToBase64_shape charSigned b
    exact ⟨_, henc⟩

/-! ## Claims, continued -/

/-- C11, counterexample: no byte sequence with a byte of `0x80` or more has,
under a signed `char`, a bit string other than the 8-bit unsigned texts of its
bytes or an output other than the RFC 4648 encoding. -/
theorem signed_char_no_hazard :
    ¬ ∃ b : List Char, ByteString b ∧ (∃ c ∈ b, 0x80 ≤ c.toNat) ∧
        (sourceBitString true b ≠ b.flatMap (fun c => bitsetToString 8 c.toNat) ∨
          StringToBase64 true b ≠ .ok (rfcEncode b)) := by
  rintro ⟨b, hb, _, h | h⟩
  · exact h (sourceBitString_eq true b)
  · exact h (StringToBase64_eq_rfcEncode true b hb)

/-- C11, amended: under a signed `char` a byte of `0x80` or more is
sign-extended in the conversion to the 64-bit constructor argument, and
`std::bitset<8>` keeps the low 8 bits of it, which are the unsigned byte; the
bit string is the 8-bit unsigned text of every byte and the output is the
RFC 4648 encoding of the unsigned bytes. -/
theorem signed_char_bits (b : List Char) (hb : ByteString b) :
    (∀ c ∈ b, 0x80 ≤ c.toNat →
        charToULL true c = c.toNat + 2 ^ 64 - 256 ∧ bitsetOfULL 8 (charToULL true c) = c.toNat) ∧
      sourceBitString true b = b.flatMap (fun c => bitsetToString 8 c.toNat) ∧
      StringToBase64 true b = .ok (rfcEncode b) := by
  refine ⟨?_, sourceBitString_eq true b, StringToBase64_eq_rfcEncode true b hb⟩
  intro c hc h80
  have h256 := hb c hc
  have hconv : charToULL true c = c.toNat + 2 ^ 64 - 256 := by
    unfold charToULL
    rw [if_pos (by simpa using h80)]
  refine ⟨hconv, ?_⟩
  rw [hconv]
  unfold bitsetOfULL
  norm_num
  omega

/-- Witness of `signed_char_bits`: the bytes `0xFF 0x80`. -/
theorem signed_char_bits_witness :
    ByteString [Char.ofNat 0xFF, Char.ofNat 0x80] ∧
      (∀ c ∈ [Char.ofNat 0xFF, Char.ofNat 0x80], 0x80 ≤ c.toNat →
        charToULL true c = c.toNat + 2 ^ 64 - 256 ∧ bitsetOfULL 8 (charToULL true c) = c.toNat) ∧
      sourceBitString true [Char.ofNat 0xFF, Char.ofNat 0x80]
        = [Char.ofNat 0xFF, Char.ofNat 0x80].flatMap (fun c => bitsetToString 8 c.toNat) ∧
      StringToBase64 true [Char.ofNat 0xFF, Char.ofNat 0x80]
        = .ok (rfcEncode [Char.ofNat 0xFF, Char.ofNat 0x80]) :=
  ⟨by decide, signed_char_bits [Char.ofNat 0xFF, Char.ofNat 0x80] (by decide)⟩

/-- C12, counterexample: on `Zm8=`, with one trailing `=`, the decoder
discards 2 bits, not 4; on `Zg==`, with two, it discards 4 bits, not 2. -/
theorem discarded_bits_swapped :
    WellFormed "Zm8=".toList ∧ trailingPads "Zm8=".toList = 1 ∧
      discardedBits "Zm8=".toList = .ok 2 ∧
      WellFormed "Zg==".toList ∧ trailingPads "Zg==".toList = 2 ∧
      discardedBits "Zg==".toList = .ok 4 := by
  decide

/-- C12, amended: on a well-formed text with `K` non-pad characters and `P`
trailing `=` the bit string has `6 * K` bits and the decoder discards
`6 * K mod 8` of them, which is 2 bits when `P = 1`, 4 bits when `P = 2` and
0 bits when `P = 0`. -/
theorem discarded_bits_law (s : List Char) (h : WellFormed s) :
    (∃ bits, decoderBitString s = .ok bits ∧ bits.length = 6 * (s.length - trailingPads s)) ∧
      discardedBits s = .ok (6 * (s.length - trailingPads s) % 8) ∧
      6 * (s.length - trailingPads s) % 8
        = (if trailingPads s = 1 then 2 else if trailingPads s = 2 then 4 else 0) := by
  obtain ⟨body, P, rfl, hbody, hP, hm⟩ := h.split
  have hne : ∀ c ∈ body, c ≠ '=' := fun c hc => ne_pad_of_mem c (hbody c hc)
  have hlen : (body.flatMap (fun c => bitsetToString 6 (find base64_alphabet c))).length
      = 6 * body.length := length_flatMap_bits 6 _ body
  rw [trailingPads_append_pads body P hne, List.length_append, List.length_replicate,
    Nat.add_sub_cancel]
  refine ⟨⟨_, decoderBitString_eq _, ?_⟩, ?_, ?_⟩
  · rw [bits_body_pads body P hne, hlen]
  · rw [discardedBits_eq, bits_body_pads body P hne, count_body_pads body P hne,
      removeExtraBits_take P _ hP (by intro hpos; rw [hlen]; omega), bind_ok,
      List.length_take, hlen, List.length_append, List.length_replicate, Nat.add_sub_cancel]
    congr 1
    omega
  · split_ifs <;> omega

/-- Witness of `discarded_bits_law`: the text `Zm9vYg==`. -/
theorem discarded_bits_law_witness :
    WellFormed "Zm9vYg==".toList ∧
      (∃ bits, decoderBitString "Zm9vYg==".toList = .ok bits ∧
        bits.length = 6 * ("Zm9vYg==".toList.length - trailingPads "Zm9vYg==".toList)) ∧
      discardedBits "Zm9vYg==".toList
        = .ok (6 * ("Zm9vYg==".toList.length - trailingPads "Zm9vYg==".toList) % 8) ∧
      6 * ("Zm9vYg==".toList.length - trailingPads "Zm9vYg==".toList) % 8
        = (if trailingPads "Zm9vYg==".toList = 1 then 2
            else if trailingPads "Zm9vYg==".toList = 2 then 4 else 0) :=
  ⟨by decide, discarded_bits_law "Zm9vYg==".toList (by decide)⟩

/-- C13, counterexample: for `!`, which is not in the alphabet, the lookup
yields `npos`, and the 6-bit value the decoder uses is 63, which is in range:
it is the index of the alphabet character `/`. -/
theorem not_found_in_range :
    '!' ∉ base64_alphabet ∧ find base64_alphabet '!' = npos ∧
      bitsetOfULL 6 (find base64_alphabet '!') = 63 ∧
      '/' ∈ base64_alphabet ∧ alphabetIndex '/' = 63 := by
  decide

/-- C13, amended: for every character outside the alphabet the lookup yields
the not-found sentinel `npos`, and the 6-bit value the decoder uses for it is
63, the index of the alphabet character `/`. -/
theorem not_found_value (c : Char) (hc : c ∉ base64_alphabet) :
    find base64_alphabet c = npos ∧ npos = 2 ^ 64 - 1 ∧
      bitsetOfULL 6 (find base64_alphabet c) = 63 ∧
      alphabetChar 63 = '/' ∧ alphabetIndex '/' = 63 := by
  refine ⟨not_mem_find c hc, rfl, ?_, by decide, by decide⟩
  rw [not_mem_find c hc]
  exact bitsetOfULL_npos

/-- Witness of `not_found_value`: the character `#`. -/
theorem not_found_value_witness :
    '#' ∉ base64_alphabet ∧ find base64_alphabet '#' = npos ∧ npos = 2 ^ 64 - 1 ∧
      bitsetOfULL 6 (find base64_alphabet '#') = 63 ∧
      alphabetChar 63 = '/' ∧ alphabetIndex '/' = 63 :=
  ⟨by decide, not_found_value '#' (by decide)⟩

/-- C14 (failure set): the decoder fails exactly on the texts `=` and `==`,
by `std::length_error` from a `resize` to the wrapped size `2^64 - 2` or
`2^64 - 4`; on every other text it returns a byte sequence. -/
theorem decode_failure_set (s : List Char) :
    ((∃ e, Base64ToString s = .error e) ↔ (s = ['='] ∨ s = ['=', '='])) ∧
      (∀ e, Base64ToString s = .error e → e = .lengthError) ∧
      ((∃ out, Base64ToString s = .ok out) ↔ ¬ (s = ['='] ∨ s = ['=', '='])) ∧
      size_t_sub 0 2 = 2 ^ 64 - 2 ∧ size_t_sub 0 4 = 2 ^ 64 - 4 ∧ max_size < 2 ^ 64 - 4 := by
  have e1 : Base64ToString ['='] = .error .lengthError := by decide
  have e2 : Base64ToString ['=', '='] = .error .lengthError := by decide
  refine ⟨?_, ?_, ?_, by decide, by decide, by decide⟩
  · constructor
    · rintro ⟨e, he⟩
      by_contra hs
      obtain ⟨out, hout⟩ := Base64ToString_ok_of_ne s (fun h => hs (Or.inl h))
        (fun h => hs (Or.inr h))
      rw [hout] at he
      cases he
    · rintro (rfl | rfl)
      · exact ⟨_, e1⟩
      · exact ⟨_, e2⟩
  · intro e he
    by_cases hs : s = ['='] ∨ s = ['=', '=']
    · rcases hs with rfl | rfl
      · rw [e1] at he; cases he; rfl
      · rw [e2] at he; cases he; rfl
    · obtain ⟨out, hout⟩ := Base64ToString_ok_of_ne s (fun h => hs (Or.inl h))
        (fun h => hs (Or.inr h))
      rw [hout] at he
      cases he
  · constructor
    · rintro ⟨out, hout⟩ (rfl | rfl)
      · rw [e1] at hout; cases hout
      · rw [e2] at hout; cases hout
    · intro hs
      exact Base64ToString_ok_of_ne s (fun h => hs (Or.inl h)) (fun h => hs (Or.inr h))

/-- C15 (decoder length law): on a well-formed text of length `M` with `P`
trailing `=` the bit string left after the cut has `8 * (3 * M / 4 - P)` bits,
every slice the byte loop reads has 8 characters, and the decoder returns
exactly `3 * M / 4 - P` bytes. -/
theorem decode_length_law (s : List Char) (h : WellFormed s) :
    ∃ bits out, decoderCutBitString s = .ok bits ∧
      bits.length = 8 * (3 * s.length / 4 - trailingPads s) ∧
      (∀ i, i < bits.length → i % 8 = 0 →
        ∃ slice, substr bits i 8 = .ok slice ∧ slice.length = 8) ∧
      Base64ToString s = .ok out ∧ out.length = 3 * s.length / 4 - trailingPads s := by
  obtain ⟨body, P, rfl, hbody, hP, hm⟩ := h.split
  have hne : ∀ c ∈ body, c ≠ '=' := fun c hc => ne_pad_of_mem c (hbody c hc)
  have hlen : (body.flatMap (fun c => bitsetToString 6 (find base64_alphabet c))).length
      = 6 * body.length := length_flatMap_bits 6 _ body
  have h64 := alphabetIndex_lt body hbody
  have hbytes := rfcBytes_length (body.map alphabetIndex) P h64 (by simpa using hm) hP
  rw [List.length_map] at hbytes
  have hcut : ((body.flatMap (fun c => bitsetToString 6 (find base64_alphabet c))).take
      (6 * body.length - 2 * P)).length = 8 * (3 * (body.length + P) / 4 - P) := by
    rw [List.length_take, hlen]
    omega
  rw [trailingPads_append_pads body P hne, List.length_append, List.length_replicate]
  refine ⟨_, _, decoderCutBitString_body_pads body P hne hP hm, hcut, ?_,
    Base64ToString_wellFormed body P hbody hP hm, ?_⟩
  · intro i hi h8
    refine ⟨_, by unfold substr; rw [if_neg (by omega)], ?_⟩
    rw [List.length_take, List.length_drop]
    omega
  · rw [rfcDecode_eq body P hne hm hP, List.length_map]
    omega

/-- Witness of `decode_length_law`: the text `SGVsbG8sIHdvcmxkIQ==`. -/
theorem decode_length_law_witness :
    WellFormed "SGVsbG8sIHdvcmxkIQ==".toList ∧
      ∃ bits out, decoderCutBitString "SGVsbG8sIHdvcmxkIQ==".toList = .ok bits ∧
        bits.length = 8 * (3 * "SGVsbG8sIHdvcmxkIQ==".toList.length / 4
          - trailingPads "SGVsbG8sIHdvcmxkIQ==".toList) ∧
        (∀ i, i < bits.length → i % 8 = 0 →
          ∃ slice, substr bits i 8 = .ok slice ∧ slice.length = 8) ∧
        Base64ToString "SGVsbG8sIHdvcmxkIQ==".toList = .ok out ∧
        out.length = 3 * "SGVsbG8sIHdvcmxkIQ==".toList.length / 4
          - trailingPads "SGVsbG8sIHdvcmxkIQ==".toList :=
  ⟨by decide, decode_length_law "SGVsbG8sIHdvcmxkIQ==".toList (by decide)⟩

/-- C16 (reverse round trip): on a well-formed canonical text the decoder
returns bytes that the encoder maps back to the text, for either signedness of
`char`; the well-formed text `Zh==` is not canonical, decodes to `f`, and `f`
encodes to `Zg==`, a different text. -/
theorem reverse_roundtrip (charSigned : Bool) (s : List Char) (h : WellFormed s)
    (hc : Canonical s) :
    (∃ bytes, Base64ToString s = .ok bytes ∧ StringToBase64 charSigned bytes = .ok s) ∧
      WellFormed "Zh==".toList ∧ ¬ Canonical "Zh==".toList ∧
      Base64ToString "Zh==".toList = .ok "f".toList ∧
      StringToBase64 charSigned "f".toList = .ok "Zg==".toList ∧
      "Zg==".toList ≠ "Zh==".toList := by
  refine ⟨?_, by decide, by decide, by decide, by cases charSigned <;> decide, by decide⟩
  obtain ⟨body, P, rfl, hbody, hP, hm⟩ := h.split
  exact encode_decoded_canonical charSigned body P hbody hP hm hc

/-- Witness of `reverse_roundtrip`: the canonical text `Zm8=`. -/
theorem reverse_roundtrip_witness :
    WellFormed "Zm8=".toList ∧ Canonical "Zm8=".toList ∧
      (∃ bytes, Base64ToString "Zm8=".toList = .ok bytes ∧
        StringToBase64 true bytes = .ok "Zm8=".toList) ∧
      WellFormed "Zh==".toList ∧ ¬ Canonical "Zh==".toList ∧
      Base64ToString "Zh==".toList = .ok "f".toList ∧
      StringToBase64 true "f".toList = .ok "Zg==".toList ∧
      "Zg==".toList ≠ "Zh==".toList :=
  ⟨by decide, by decide, reverse_roundtrip true "Zm8=".toList (by decide) (by decide)⟩

/-- C17 (non-alphabet characters decode as `/`): replacing a character that is
neither in the alphabet nor `=` by `/` leaves the result of the decoder
unchanged; the not-found lookup result cut to 6 bits is 63, the index of `/`. -/
theorem non_alphabet_as_slash (s : List Char) (i : Nat) (c : Char) (hi : s[i]? = some c)
    (hc : c ∉ base64_alphabet) (hp : c ≠ '=') :
    Base64ToString (s.set i '/') = Base64ToString s ∧
      bitsetOfULL 6 (find base64_alphabet c) = 63 ∧ find base64_alphabet '/' = 63 := by
  refine ⟨?_, ?_, find_slash⟩
  · apply Base64ToString_congr
    · exact count_set_slash s i c hi hp
    · rw [List.length_set, count_set_slash s i c hi hp]
      exact flatMap_take_set '/' c (not_found_bits c hc) s i _ hi
  · rw [not_mem_find c hc]
    exact bitsetOfULL_npos

/-- Witness of `non_alphabet_as_slash`: the text `Zm!v`, whose third character is `!`. -/
theorem non_alphabet_as_slash_witness :
    "Zm!v".toList[2]? = some '!' ∧ '!' ∉ base64_alphabet ∧ '!' ≠ '=' ∧
      Base64ToString ("Zm!v".toList.set 2 '/') = Base64ToString "Zm!v".toList ∧
      bitsetOfULL 6 (find base64_alphabet '!') = 63 ∧ find base64_alphabet '/' = 63 :=
  ⟨by decide, by decide, by decide,
    non_alphabet_as_slash "Zm!v".toList 2 '!' (by decide) (by decide) (by decide)⟩

/-- C18 (`=` is counted anywhere): the first decoder loop reads only the first
`M - c` characters of a text of length `M` with `c` occurrences of `=`, so two
texts with the same number of `=` and the same first `M - c` characters decode
to the same result, whatever their last `c` characters are. -/
theorem decode_ignores_tail (s t : List Char) (hc : count s '=' = count t '=')
    (hpre : s.take (s.length - count s '=') = t.take (t.length - count t '=')) :
    decoderBitString s
        = .ok ((s.take (s.length - count s '=')).flatMap
            (fun c => bitsetToString 6 (find base64_alphabet c))) ∧
      Base64ToString s = Base64ToString t := by
  refine ⟨decoderBitString_eq s, Base64ToString_congr s t hc ?_⟩
  rw [hpre]

/-- Witness of `decode_ignores_tail`: `Zg=A` and `Zg=B`, which differ in an
alphabet character in the last position. -/
theorem decode_ignores_tail_witness :
    count "Zg=A".toList '=' = count "Zg=B".toList '=' ∧
      "Zg=A".toList.take ("Zg=A".toList.length - count "Zg=A".toList '=')
        = "Zg=B".toList.take ("Zg=B".toList.length - count "Zg=B".toList '=') ∧
      decoderBitString "Zg=A".toList
        = .ok (("Zg=A".toList.take ("Zg=A".toList.length - count "Zg=A".toList '=')).flatMap
            (fun c => bitsetToString 6 (find base64_alphabet c))) ∧
      Base64ToString "Zg=A".toList = Base64ToString "Zg=B".toList :=
  ⟨by decide, by decide, decode_ignores_tail "Zg=A".toList "Zg=B".toList (by decide) (by decide)⟩

/-- C19 (concatenation): when the length of `a` is a multiple of 3 the
encoding of `a ++ b` is the encoding of `a` followed by the encoding of `b`;
for `a = f`, of length 1, and `b = o` it is not. -/
theorem encode_append (charSigned : Bool) (a b : List Char) (ha : a.length % 3 = 0) :
    (∃ x y, StringToBase64 charSigned a = .ok x ∧ StringToBase64 charSigned b = .ok y ∧
        StringToBase64 charSigned (a ++ b) = .ok (x ++ y)) ∧
      "f".toList.length % 3 ≠ 0 ∧ "o".toList ≠ [] ∧
      StringToBase64 charSigned "f".toList = .ok "Zg==".toList ∧
      StringToBase64 charSigned "o".toList = .ok "bw==".toList ∧
      StringToBase64 charSigned ("f".toList ++ "o".toList) = .ok "Zm8=".toList ∧
      "Zm8=".toList ≠ "Zg==".toList ++ "bw==".toList := by
  refine ⟨StringToBase64_append charSigned a b ha, by decide, by decide,
    by cases charSigned <;> decide, by cases charSigned <;> decide,
    by cases charSigned <;> decide, by decide⟩

/-- Witness of `encode_append`: `a = foo` and `b = ba`. -/
theorem encode_append_witness :
    "foo".toList.length % 3 = 0 ∧
      (∃ x y, StringToBase64 false "foo".toList = .ok x ∧
        StringToBase64 false "ba".toList = .ok y ∧
        StringToBase64 false ("foo".toList ++ "ba".toList) = .ok (x ++ y)) ∧
      "f".toList.length % 3 ≠ 0 ∧ "o".toList ≠ [] ∧
      StringToBase64 false "f".toList = .ok "Zg==".toList ∧
      StringToBase64 false "o".toList = .ok "bw==".toList ∧
      StringToBase64 false ("f".toList ++ "o".toList) = .ok "Zm8=".toList ∧
      "Zm8=".toList ≠ "Zg==".toList ++ "bw==".toList :=
  ⟨by decide, encode_append false "foo".toList "ba".toList (by decide)⟩

end Base64Client

